import Mathlib

/-!
Verification of the bmfont bitmap-font parser and layout engine.

This file shallowly embeds the core of the crate (`src/lib.rs`, `src/sections.rs`,
`src/utils.rs`, `src/page.rs`, `src/char.rs`, `src/kerning_value.rs`) into Lean:

* machine `u32` values are represented as `Nat`; wrapping `u32` arithmetic
  (the `(first_char_id << 1) - 1` needle of `find_kerning_values`) is modelled
  with explicit `% 2^32`; the `u32 as i32` casts are modelled exactly by `toI32`;
* `i32` quantities (offsets, advances, cursors) are modelled as unbounded `Int`
  (faithful to executions in which the signed additions do not overflow);
* Rust panics (`unwrap`, `assert!`, arithmetic overflow in checked builds) are
  modelled as explicit error/`Option` outcomes;
* lazy iterators are modelled by the (finite) lists of the elements they yield;
* a Rust `&str` given to the layout engine is modelled as the list of the
  Unicode scalar values of its characters (`List Nat`); the font-definition
  text is modelled as the list of its lines (the result of `content.lines()`),
  each line being a Lean `String`.

Definitions come first, then the theorems settling the specification claims.
-/

/-! ## Basic data model (`rect.rs`, `char.rs`, `kerning_value.rs`, `page.rs`, `lib.rs`) -/

/-- Constant `2^32`, the modulus of `u32` arithmetic. -/
def u32Mod : Nat := 4294967296

/-- Constant `2^31`, the first `u32` value whose `as i32` cast is negative. -/
def i32Half : Nat := 2147483648

/-- The value of the Rust cast `x as i32` for a `u32` value `x`, as an integer. -/
def toI32 (n : Nat) : Int :=
  if n % u32Mod < i32Half then ((n % u32Mod : Nat) : Int)
  else ((n % u32Mod : Nat) : Int) - (u32Mod : Int)

/-- The `Rect` from `rect.rs`. -/
structure Rect where
  x : Int
  y : Int
  width : Nat
  height : Nat
deriving DecidableEq, Repr, Inhabited

/-- The `Char` from `char.rs` (named `FontChar` here because `Char` is taken by Lean core). -/
structure FontChar where
  id : Nat
  x : Nat
  y : Nat
  width : Nat
  height : Nat
  xoffset : Int
  yoffset : Int
  xadvance : Int
  page_index : Nat
deriving DecidableEq, Repr, Inhabited

/-- The `KerningValue` from `kerning_value.rs`. -/
structure KerningValue where
  first_char_id : Nat
  second_char_id : Nat
  value : Int
deriving DecidableEq, Repr, Inhabited

/-- The `Page` from `page.rs`. -/
structure Page where
  id : Nat
  file : String
deriving DecidableEq, Repr, Inhabited

/-- The `CharPosition` from `lib.rs`. -/
structure CharPosition where
  page_rect : Rect
  screen_rect : Rect
  page_index : Nat
deriving DecidableEq, Repr, Inhabited

/-- The `OrdinateOrientation` from `lib.rs`. -/
inductive OrdinateOrientation where
  | BottomToTop
  | TopToBottom
deriving DecidableEq, Repr, Inhabited

/-- The `BMFont` from `lib.rs`. -/
structure BMFont where
  base_height : Nat
  line_height : Nat
  characters : List FontChar
  kerning_values : List KerningValue
  pages : List Page
  ordinate_orientation : OrdinateOrientation
deriving DecidableEq, Repr, Inhabited

/-! ## Rust `slice::binary_search_by`

The standard-library binary search, embedded with explicit fuel so that the
definition is structurally recursive (hence kernel-computable).  Each loop
iteration shrinks `right - left` by at least one, so fuel `xs.length` is enough:
when the fuel runs out the remaining interval is empty and the loop would have
exited with `Err(left)` anyway.  `.ok i` is Rust's `Ok(i)` (comparator returned
`Equal` at `i`), `.error i` is Rust's `Err(i)` (the insertion point). -/

def bsGo (g : Nat → Ordering) : Nat → Nat → Nat → Except Nat Nat
  | 0, left, _ => Except.error left
  | fuel + 1, left, right =>
    if left < right then
      match g (left + (right - left) / 2) with
      | Ordering.lt => bsGo g fuel (left + (right - left) / 2 + 1) right
      | Ordering.gt => bsGo g fuel left (left + (right - left) / 2)
      | Ordering.eq => Except.ok (left + (right - left) / 2)
    else Except.error left

/-- The `xs.binary_search_by f` from Rust's standard library. -/
def binarySearchBy [Inhabited α] (xs : List α) (f : α → Ordering) : Except Nat Nat :=
  bsGo (fun i => f (xs.getD i default)) xs.length 0 xs.length

/-- The `Result::unwrap_err` specialised to the use in `find_kerning_values`.
The `.ok` branch is a Rust panic; `find_kerning_never_ok` below proves it
unreachable there (the comparator can never return `Equal`), so mapping it to a
junk index is sound. -/
def unwrapErr : Except Nat Nat → Nat
  | Except.error i => i
  | Except.ok i => i

deriving instance DecidableEq for Except

/-! ## String utilities (`str::split_whitespace`, `str::splitn(2, '=')`, `FromStr`) -/

/-- One step of Rust's `split_whitespace`, with fuel (`cs.length` suffices).
Whitespace is modelled as ASCII whitespace (the font format is line-based
ASCII; a font-definition line never contains the exotic Unicode spaces on
which Rust's Unicode-aware splitter would additionally split). -/
def splitWSGo : Nat → List Char → List (List Char)
  | 0, _ => []
  | _, [] => []
  | fuel + 1, c :: rest =>
    if c.isWhitespace then splitWSGo fuel rest
    else (c :: rest.takeWhile (fun d => !d.isWhitespace)) ::
      splitWSGo fuel (rest.dropWhile (fun d => !d.isWhitespace))

/-- Rust `s.split_whitespace()`: the list of maximal non-whitespace tokens. -/
def splitWhitespace (s : String) : List (List Char) :=
  splitWSGo s.data.length s.data

/-- Rust `s.splitn(2, '=')`: split at the first `'='` only; always one or two
parts, one part exactly when the string contains no `'='`. -/
def splitn2Eq : List Char → List (List Char)
  | [] => [[]]
  | c :: rest =>
    if c = '=' then [[], rest]
    else
      match splitn2Eq rest with
      | [p] => [c :: p]
      | [p, v] => [c :: p, v]
      | other => other

/-- Digit fold shared by the integer parsers: `some` of the value when every
character is an ASCII digit and the list is non-empty, `none` otherwise. -/
def decDigits (ds : List Char) : Option Nat :=
  if ds.isEmpty then none
  else ds.foldl
    (fun acc c => acc.bind fun n => if c.isDigit then some (n * 10 + (c.toNat - 48)) else none)
    (some 0)

/-- Rust `u32::from_str`: optional leading `'+'`, one or more ASCII digits,
value below `2^32`. -/
def parseU32 (cs : List Char) : Option Nat :=
  let ds := match cs with
    | '+' :: rest => rest
    | _ => cs
  (decDigits ds).bind fun n => if n < u32Mod then some n else none

/-- Rust `i32::from_str`: optional sign, one or more ASCII digits, value in
`[-2^31, 2^31)`. -/
def parseI32 (cs : List Char) : Option Int :=
  match cs with
  | '-' :: rest => (decDigits rest).bind fun n =>
      if n ≤ i32Half then some (-(n : Int)) else none
  | '+' :: rest => (decDigits rest).bind fun n =>
      if n < i32Half then some ((n : Int)) else none
  | _ => (decDigits cs).bind fun n =>
      if n < i32Half then some ((n : Int)) else none

/-! ## Error types (`config_parse_error.rs`, `string_parse_error.rs`, `error.rs`) -/

/-- The `ConfigParseError` from `config_parse_error.rs` (`sectionName` stands for the
source's `section` field, which is a keyword in Lean). -/
inductive ConfigParseError where
  | MissingSection (sectionName : String)
  | MissingComponent (sectionName component : String)
  | InvalidComponent (sectionName expected_component actual_component : String)
  | InvalidComponentValue (sectionName component value : String)
deriving DecidableEq, Repr, Inhabited

/-- The `StringParseError` from `string_parse_error.rs`; characters are represented
by their Unicode scalar values. -/
structure StringParseError where
  missing_characters : List Nat
  unsupported_characters : List Nat
deriving DecidableEq, Repr, Inhabited

/-- Outcome of font construction: a `ConfigParseError`, or a Rust panic
(`unwrap` / `assert!` failure).  The source's `Error::IOError` variant concerns
the out-of-scope byte source and is not modelled. -/
inductive BuildErr where
  | panic
  | cfg (e : ConfigParseError)
deriving DecidableEq, Repr, Inhabited

/-- Lift a `ConfigParseError` result into a construction result (`Error::from`). -/
def liftCfg : Except ConfigParseError τ → Except BuildErr τ
  | Except.ok v => Except.ok v
  | Except.error e => Except.error (BuildErr.cfg e)

/-! ## `utils::extract_component_value` -/

/-- The `extract_component_value` from `utils.rs`.  The generic `T: FromStr` is
modelled by the conversion function `conv` (`parseU32`, `parseI32`, or `some`
for `String`). -/
def extract_component_value (conv : List Char → Option τ) (s : Option (List Char))
    (sectionName component : String) : Except ConfigParseError τ :=
  match s with
  | none => Except.error (ConfigParseError.MissingComponent sectionName component)
  | some str =>
    match splitn2Eq str with
    | [k, v] =>
      if k = component.data then
        match conv v with
        | some value => Except.ok value
        | none => Except.error
            (ConfigParseError.InvalidComponentValue sectionName component (String.mk v))
      else Except.error
        (ConfigParseError.InvalidComponent sectionName component (String.mk k))
    | _ => Except.error (ConfigParseError.InvalidComponentValue sectionName component "")

/-! ## Record parsers (`page.rs`, `char.rs`, `kerning_value.rs`) -/

/-- Rust `s.trim_matches('"')`: remove every leading and every trailing
double-quote character. -/
def trimQuotes (cs : List Char) : List Char :=
  ((cs.dropWhile (fun c => c == '"')).reverse.dropWhile (fun c => c == '"')).reverse

/-- The `Page::new` from `page.rs`.  The `assert_eq!` on the section tag and the
`expect` on the empty string are modelled as `BuildErr.panic`. -/
def pageNew (s : String) : Except BuildErr Page :=
  match (splitWhitespace s).head? with
  | none => Except.error BuildErr.panic
  | some tag =>
    if tag = "page".data then do
      let id ← liftCfg (extract_component_value parseU32 ((splitWhitespace s).get? 1) "page" "id")
      let file ← liftCfg (extract_component_value (fun v => some v) ((splitWhitespace s).get? 2)
        "page" "file")
      Except.ok { id := id, file := String.mk (trimQuotes file) }
    else Except.error BuildErr.panic

/-- The `Char::new` from `char.rs`. -/
def charNew (s : String) : Except BuildErr FontChar :=
  let comps := splitWhitespace s
  match comps.head? with
  | none => Except.error BuildErr.panic
  | some tag =>
    if tag = "char".data then do
      let id ← liftCfg (extract_component_value parseU32 (comps.get? 1) "char" "id")
      let x ← liftCfg (extract_component_value parseU32 (comps.get? 2) "char" "x")
      let y ← liftCfg (extract_component_value parseU32 (comps.get? 3) "char" "y")
      let width ← liftCfg (extract_component_value parseU32 (comps.get? 4) "char" "width")
      let height ← liftCfg (extract_component_value parseU32 (comps.get? 5) "char" "height")
      let xoffset ← liftCfg (extract_component_value parseI32 (comps.get? 6) "char" "xoffset")
      let yoffset ← liftCfg (extract_component_value parseI32 (comps.get? 7) "char" "yoffset")
      let xadvance ← liftCfg (extract_component_value parseI32 (comps.get? 8) "char" "xadvance")
      let page_index ← liftCfg (extract_component_value parseU32 (comps.get? 9) "char" "page")
      Except.ok { id := id, x := x, y := y, width := width, height := height,
                  xoffset := xoffset, yoffset := yoffset, xadvance := xadvance,
                  page_index := page_index }
    else Except.error BuildErr.panic

/-- The `KerningValue::new` from `kerning_value.rs`. -/
def kerningNew (s : String) : Except BuildErr KerningValue :=
  let comps := splitWhitespace s
  match comps.head? with
  | none => Except.error BuildErr.panic
  | some tag =>
    if tag = "kerning".data then do
      let first ← liftCfg (extract_component_value parseU32 (comps.get? 1) "kerning" "first")
      let second ← liftCfg (extract_component_value parseU32 (comps.get? 2) "kerning" "second")
      let value ← liftCfg (extract_component_value parseI32 (comps.get? 3) "kerning" "amount")
      Except.ok { first_char_id := first, second_char_id := second, value := value }
    else Except.error BuildErr.panic

/-! ## `sections.rs` -/

/-- The `Sections` from `sections.rs`. -/
structure Sections where
  common_section : String
  page_sections : List String
  char_sections : List String
  kerning_sections : List String
deriving DecidableEq, Repr, Inhabited

/-- Rust `str::starts_with`. -/
def strStartsWith (s pre : String) : Bool := pre.data.isPrefixOf s.data

/-- The `Sections::new` from `sections.rs`, over the list of lines of the decoded
text (`content.lines()`).  The `let _ = lines.next().unwrap()` consuming the
`chars count=N` marker panics when no line follows the `page` run; this is
modelled by `BuildErr.panic`. -/
def sectionsNew (lines : List String) : Except BuildErr Sections :=
  match lines with
  | [] => Except.error (BuildErr.cfg (ConfigParseError.MissingSection "info"))
  | info :: rest =>
    if strStartsWith info "info" then
      match rest with
      | [] => Except.error (BuildErr.cfg (ConfigParseError.MissingSection "common"))
      | common :: rest2 =>
        if strStartsWith common "common" then
          let fromPage := rest2.dropWhile (fun l => !strStartsWith l "page")
          let pageSecs := fromPage.takeWhile (fun l => strStartsWith l "page")
          if pageSecs = [] then
            Except.error (BuildErr.cfg (ConfigParseError.MissingSection "page"))
          else
            match fromPage.drop pageSecs.length with
            | [] => Except.error BuildErr.panic
            | _ :: rest3 =>
              let charSecs := rest3.takeWhile (fun l => strStartsWith l "char")
              if charSecs = [] then
                Except.error (BuildErr.cfg (ConfigParseError.MissingSection "char"))
              else
                let afterChars := rest3.drop charSecs.length
                let kernSecs := match afterChars with
                  | [] => []
                  | _ :: rest4 => rest4.takeWhile (fun l => strStartsWith l "kerning")
                Except.ok ⟨common, pageSecs, charSecs, kernSecs⟩
        else Except.error (BuildErr.cfg (ConfigParseError.MissingSection "common"))
    else Except.error (BuildErr.cfg (ConfigParseError.MissingSection "info"))

/-! ## Font construction (`BMFont::new`) -/

/-- One insertion step of the character table of `BMFont::new`:
insert sorted by `id`, skip when the `id` is already present. -/
def insertChar (chars : List FontChar) (c : FontChar) : List FontChar :=
  match binarySearchBy chars (fun probe => compare probe.id c.id) with
  | Except.error idx => chars.insertIdx idx c
  | Except.ok _ => chars

/-- The character table built by `BMFont::new` from the decoded `char` records
in declaration order. -/
def buildCharacters (cs : List FontChar) : List FontChar :=
  cs.foldl insertChar []

/-- One insertion step of the kerning table of `BMFont::new`:
insert sorted by `first_char_id`, duplicates allowed (both `Ok` and `Err`
indices insert). -/
def insertKerning (ks : List KerningValue) (k : KerningValue) : List KerningValue :=
  match binarySearchBy ks (fun probe => compare probe.first_char_id k.first_char_id) with
  | Except.error idx => ks.insertIdx idx k
  | Except.ok idx => ks.insertIdx idx k

/-- The kerning table built by `BMFont::new` from the decoded `kerning` records
in declaration order. -/
def buildKernings (ks : List KerningValue) : List KerningValue :=
  ks.foldl insertKerning []

/-- The `BMFont::new` from `lib.rs`, over the lines of the decoded source text. -/
def bmfontNew (lines : List String) (orient : OrdinateOrientation) :
    Except BuildErr BMFont := do
  let sections ← sectionsNew lines
  let comps := splitWhitespace sections.common_section
  let line_height ← liftCfg (extract_component_value parseU32 (comps.get? 1) "common" "lineHeight")
  let base_height ← liftCfg (extract_component_value parseU32 (comps.get? 2) "common" "base")
  let pages ← sections.page_sections.mapM pageNew
  let charRecs ← sections.char_sections.mapM charNew
  let kernRecs ← sections.kerning_sections.mapM kerningNew
  Except.ok { base_height := base_height, line_height := line_height,
              characters := buildCharacters charRecs,
              kerning_values := buildKernings kernRecs,
              pages := pages, ordinate_orientation := orient }

/-- The sequence yielded by the `pages()` iterator (`PageIter`). -/
def pagesFiles (font : BMFont) : List String := font.pages.map (fun p => p.file)

/-! ## Glyph and kerning lookup (`BMFont::find_kerning_values`, `CharIter`) -/

/-- The binary-search glyph lookup shared by the validation pass and `CharIter`
(`characters.binary_search_by(|probe| probe.id.cmp(&char_id))`, followed by
indexing on success). -/
def lookupChar (chars : List FontChar) (cid : Nat) : Option FontChar :=
  match binarySearchBy chars (fun probe => compare probe.id cid) with
  | Except.ok idx => some (chars.getD idx default)
  | Except.error _ => none

/-- The needle of `find_kerning_values`: `(first_char_id << 1) - 1` in wrapping
`u32` arithmetic (in a checked build the subtraction panics for
`first_char_id = 0`; the release build wraps to `2^32 - 1`, which is what is
modelled here). -/
def kerningNeedle (k : Nat) : Nat :=
  ((k * 2) % u32Mod + (u32Mod - 1)) % u32Mod

/-- The `BMFont::find_kerning_values` from `lib.rs`: binary search with the doubled
keys, then the run yielded by `KerningIter` (scan while `first_char_id` still
matches).  The list returned is the full sequence the lazy `KerningIter` can
yield. -/
def find_kerning_values (ks : List KerningValue) (k : Nat) : List KerningValue :=
  let idx := unwrapErr (binarySearchBy ks
    (fun probe => compare ((probe.first_char_id * 2) % u32Mod) (kerningNeedle k)))
  (ks.drop idx).takeWhile (fun kv => kv.first_char_id == k)

/-! ## Text traversal (`LineIter`, `CharIter`) -/

/-- One step of the line split performed by the cooperating `LineIter` /
`CharIter` pair: a line is a maximal run without `'\n'` (scalar value 10); the
terminating newline is consumed; a trailing newline does not open a new line.
Fuel (`cs.length` suffices) keeps the recursion structural. -/
def splitLinesGo : Nat → List Nat → List (List Nat)
  | 0, _ => []
  | _, [] => []
  | fuel + 1, c :: cs =>
    let line := (c :: cs).takeWhile (fun d => d != 10)
    match (c :: cs).dropWhile (fun d => d != 10) with
    | [] => [line]
    | _ :: after => line :: splitLinesGo fuel after

/-- The lines of an input text, as produced by iterating `LineIter`. -/
def splitLines (text : List Nat) : List (List Nat) :=
  splitLinesGo text.length text

/-- The `CharIter::next` without the `parse-error` feature (permissive mode): skip
characters needing two UTF-16 units, skip characters without a glyph, resolve
the rest.  A character fits in one UTF-16 unit exactly when its scalar value is
below `0x10000 = 65536`, and that unit is then the scalar value itself. -/
def resolveLinePermissive (chars : List FontChar) : List Nat → List FontChar
  | [] => []
  | c :: rest =>
    if c < 65536 then
      match lookupChar chars c with
      | some fc => fc :: resolveLinePermissive chars rest
      | none => resolveLinePermissive chars rest
    else resolveLinePermissive chars rest

/-- The `CharIter::next` with the `parse-error` feature (strict mode): as
`resolveLinePermissive`, except that a missing glyph is an unguarded
`char_idx.unwrap()` — a panic, modelled as `none` for the whole traversal. -/
def resolveLineStrict (chars : List FontChar) : List Nat → Option (List FontChar)
  | [] => some []
  | c :: rest =>
    if c < 65536 then
      match lookupChar chars c with
      | some fc => (resolveLineStrict chars rest).map (fun tail => fc :: tail)
      | none => none
    else resolveLineStrict chars rest

/-! ## Layout (`ParseIter`, `ParseLineIter`) -/

/-- The kerning adjustment taken in `ParseLineIter::next`: `0` for the first
glyph of a line (`KerningIter::empty` yields nothing), otherwise the first
entry among `find_kerning_values(previous glyph id)` whose `second_char_id`
matches, else `0`. -/
def kerningValueFor (ks : List KerningValue) (prev : Option Nat) (cid : Nat) : Int :=
  match prev with
  | none => 0
  | some p =>
    (((find_kerning_values ks p).find? (fun kv => kv.second_char_id == cid)).map
      (fun kv => kv.value)).getD 0

/-- The body of `ParseLineIter::next`, iterated over the resolved glyphs of one
line: `x` is the running horizontal cursor, `y` the line's vertical
accumulator, `prev` the id of the previously emitted glyph of this line. -/
def layoutLineGo (font : BMFont) : List FontChar → Int → Int → Option Nat → List CharPosition
  | [], _, _, _ => []
  | c :: rest, x, y, prev =>
    let kv := kerningValueFor font.kerning_values prev c.id
    let screen_x := x + c.xoffset + kv
    let screen_y := match font.ordinate_orientation with
      | OrdinateOrientation.BottomToTop =>
        y + toI32 font.base_height - c.yoffset - toI32 c.height
      | OrdinateOrientation.TopToBottom => y + c.yoffset
    { page_rect := { x := toI32 c.x, y := toI32 c.y, width := c.width, height := c.height },
      screen_rect := { x := screen_x, y := screen_y, width := c.width, height := c.height },
      page_index := c.page_index } ::
      layoutLineGo font rest (x + c.xadvance + kv) y (some c.id)

/-- The positions emitted for one line (`ParseLineIter::new` starts with
`x = 0` and an empty kerning iterator). -/
def layoutLine (font : BMFont) (cs : List FontChar) (y : Int) : List CharPosition :=
  layoutLineGo font cs 0 y none

/-- The per-line advance of the vertical accumulator in `ParseIter::next`:
`+(line_height as i32)` for `TopToBottom`, `-(line_height as i32)` for
`BottomToTop`. -/
def dirOf (font : BMFont) : Int :=
  match font.ordinate_orientation with
  | OrdinateOrientation.TopToBottom => toI32 font.line_height
  | OrdinateOrientation.BottomToTop => -toI32 font.line_height

/-- The `ParseIter` in permissive mode, over an already split line list. -/
def layoutGo (font : BMFont) : List (List Nat) → Int → List CharPosition
  | [], _ => []
  | l :: ls, y =>
    layoutLine font (resolveLinePermissive font.characters l) y ++
      layoutGo font ls (y + dirOf font)

/-- The full sequence produced by permissive-mode `parse` (`ParseIter` over
`LineIter`, starting at `y = 0`). -/
def layoutText (font : BMFont) (text : List Nat) : List CharPosition :=
  layoutGo font (splitLines text) 0

/-- The `ParseIter` in strict mode: as `layoutGo` but a missing glyph inside
`CharIter` is a panic (`none`). -/
def layoutStrictGo (font : BMFont) : List (List Nat) → Int → Option (List CharPosition)
  | [], _ => some []
  | l :: ls, y =>
    match resolveLineStrict font.characters l with
    | none => none
    | some cs =>
      (layoutStrictGo font ls (y + dirOf font)).map (fun tail => layoutLine font cs y ++ tail)

/-- The sequence produced by iterating the strict-mode `ParseIter`;
`none` models a panic of `CharIter::next`. -/
def layoutTextStrict (font : BMFont) (text : List Nat) : Option (List CharPosition) :=
  layoutStrictGo font (splitLines text) 0

/-! ## Strict-mode validation (`BMFont::parse_lines` with `parse-error`) -/

/-- The validation loop of `parse_lines`: walk the characters, collecting (in
encounter order, duplicates kept, via `Vec::push`) the characters needing two
UTF-16 units into `unsupported` and the in-range characters without a glyph
into `missing`; newlines are skipped. -/
def validateGo (chars : List FontChar) :
    List Nat → Option (List Nat) → Option (List Nat) → Except StringParseError Unit
  | [], m, u =>
    if m.isSome || u.isSome then Except.error ⟨m.getD [], u.getD []⟩ else Except.ok ()
  | c :: rest, m, u =>
    if c = 10 then validateGo chars rest m u
    else if 65536 ≤ c then validateGo chars rest m (some (u.getD [] ++ [c]))
    else if (lookupChar chars c).isSome then validateGo chars rest m u
    else validateGo chars rest (some (m.getD [] ++ [c])) u

/-- The validation pass of `BMFont::parse_lines` (strict mode). -/
def parse_lines_strict (font : BMFont) (text : List Nat) : Except StringParseError Unit :=
  validateGo font.characters text none none

/-- Strict-mode `BMFont::parse`: validate up front, then lay the text out; the
inner `Option` models the (unreachable) panic of `CharIter::next`. -/
def parseStrict (font : BMFont) (text : List Nat) :
    Except StringParseError (Option (List CharPosition)) :=
  match parse_lines_strict font text with
  | Except.error e => Except.error e
  | Except.ok _ => Except.ok (layoutTextStrict font text)

/-! ## Transcriptions of the specification's layout description

These definitions follow the words of the specification (claim C1), to be
compared with the source-derived layout above: the kerning adjustment is the
first kerning entry *of the preceding glyph* (first in storage order among the
entries whose `first_char_id` is the preceding glyph's id) whose
`second_char_id` matches, and all `u32` quantities enter the arithmetic by
value (no `as i32` wrap). -/

/-- Modelled from the spec: the claimed kerning adjustment — the first kerning
entry of the preceding glyph whose `second_char_id` matches, else 0. -/
def claimKerningValueFor (ks : List KerningValue) (prev : Option Nat) (cid : Nat) : Int :=
  match prev with
  | none => 0
  | some p =>
    (((ks.filter (fun kv => kv.first_char_id == p)).find? (fun kv => kv.second_char_id == cid)).map
      (fun kv => kv.value)).getD 0

/-- Modelled from the spec: the per-glyph layout step exactly as claim C1 words
it. -/
def claimLayoutLineGo (font : BMFont) : List FontChar → Int → Int → Option Nat → List CharPosition
  | [], _, _, _ => []
  | c :: rest, x, y, prev =>
    let kv := claimKerningValueFor font.kerning_values prev c.id
    let screen_x := x + c.xoffset + kv
    let screen_y := match font.ordinate_orientation with
      | OrdinateOrientation.BottomToTop =>
        y + (font.base_height : Int) - c.yoffset - (c.height : Int)
      | OrdinateOrientation.TopToBottom => y + c.yoffset
    { page_rect := { x := (c.x : Int), y := (c.y : Int), width := c.width, height := c.height },
      screen_rect := { x := screen_x, y := screen_y, width := c.width, height := c.height },
      page_index := c.page_index } ::
      claimLayoutLineGo font rest (x + c.xadvance + kv) y (some c.id)

/-- Modelled from the spec: one line laid out as claim C1 words it. -/
def claimLayoutLine (font : BMFont) (cs : List FontChar) (y : Int) : List CharPosition :=
  claimLayoutLineGo font cs 0 y none

/-- Modelled from the spec: the per-line vertical advance, `±line_height` by
value. -/
def claimDirOf (font : BMFont) : Int :=
  match font.ordinate_orientation with
  | OrdinateOrientation.TopToBottom => (font.line_height : Int)
  | OrdinateOrientation.BottomToTop => -(font.line_height : Int)

/-- Modelled from the spec: the whole-text layout as claims C1/C6 word it. -/
def claimLayoutGo (font : BMFont) : List (List Nat) → Int → List CharPosition
  | [], _ => []
  | l :: ls, y =>
    claimLayoutLine font (resolveLinePermissive font.characters l) y ++
      claimLayoutGo font ls (y + claimDirOf font)

/-- Modelled from the spec: full-text layout as claims C1/C6 word it. -/
def claimLayoutText (font : BMFont) (text : List Nat) : List CharPosition :=
  claimLayoutGo font (splitLines text) 0

/-- Modelled from the spec (claim C8): stripping exactly one layer of
surrounding double quotes. -/
def stripOneLayer (cs : List Char) : List Char :=
  if 2 ≤ cs.length ∧ cs.head? = some '"' ∧ cs.getLast? = some '"' then
    (cs.drop 1).dropLast
  else cs

/-- The raw (pre-trim) value of the `file` component of a `page` line: the
third whitespace token, split at its first `'='`, provided the key is `file`. -/
def fileRawValue (s : String) : Option (List Char) :=
  ((splitWhitespace s).get? 2).bind fun tok =>
    match splitn2Eq tok with
    | [k, v] => if k = "file".data then some v else none
    | _ => none

/-! ## Classification predicates of the validation pass, and concrete inputs -/

/-- A character the strict validation pass collects as *missing*: not a
newline, fits in one UTF-16 unit, no glyph with its id. -/
def isMissing (chars : List FontChar) (c : Nat) : Bool :=
  !(c == 10) && decide (c < 65536) && !(lookupChar chars c).isSome

/-- A character the strict validation pass collects as *unsupported*: not a
newline, needs two UTF-16 units. -/
def isUnsupported (c : Nat) : Bool :=
  !(c == 10) && decide (65536 ≤ c)

/-- A well-formed font definition used as concrete test input. -/
def wLines : List String :=
  ["info face=test",
   "common lineHeight=50 base=40",
   "page id=0 file=\"font.png\"",
   "chars count=2",
   "char id=97 x=1 y=2 width=3 height=4 xoffset=5 yoffset=6 xadvance=7 page=0",
   "char id=98 x=10 y=20 width=30 height=40 xoffset=1 yoffset=2 xadvance=3 page=0",
   "kernings count=1",
   "kerning first=97 second=98 amount=-2"]

/-- The font `BMFont::new` builds from `wLines`. -/
def wFont : BMFont :=
  { base_height := 40, line_height := 50,
    characters :=
      [{ id := 97, x := 1, y := 2, width := 3, height := 4,
         xoffset := 5, yoffset := 6, xadvance := 7, page_index := 0 },
       { id := 98, x := 10, y := 20, width := 30, height := 40,
         xoffset := 1, yoffset := 2, xadvance := 3, page_index := 0 }],
    kerning_values := [{ first_char_id := 97, second_char_id := 98, value := -2 }],
    pages := [{ id := 0, file := "font.png" }],
    ordinate_orientation := OrdinateOrientation.TopToBottom }

/-- A font definition containing a glyph with id 0 and a kerning entry with
`first_char_id = 0` (both expressible in the input format). -/
def exLines0 : List String :=
  ["info face=x",
   "common lineHeight=10 base=5",
   "page id=0 file=f.png",
   "chars count=1",
   "char id=0 x=0 y=0 width=1 height=1 xoffset=0 yoffset=0 xadvance=1 page=0",
   "kernings count=1",
   "kerning first=0 second=0 amount=7"]

/-- The font `BMFont::new` builds from `exLines0`. -/
def exFont0 : BMFont :=
  { base_height := 5, line_height := 10,
    characters :=
      [{ id := 0, x := 0, y := 0, width := 1, height := 1,
         xoffset := 0, yoffset := 0, xadvance := 1, page_index := 0 }],
    kerning_values := [{ first_char_id := 0, second_char_id := 0, value := 7 }],
    pages := [{ id := 0, file := "f.png" }],
    ordinate_orientation := OrdinateOrientation.TopToBottom }

/-- A font definition whose decoded text ends right after the `page` run:
no line at all is left to serve as the `chars count` marker. -/
def exLinesTrunc : List String :=
  ["info face=x", "common lineHeight=80 base=54", "page id=0 file=font.png"]

/-- A font definition whose `page` line carries a `file` value with doubled
surrounding quotes. -/
def exLinesQuote : List String :=
  ["info face=x",
   "common lineHeight=10 base=5",
   "page id=0 file=\"\"a\"\"",
   "chars count=1",
   "char id=65 x=0 y=0 width=1 height=1 xoffset=0 yoffset=0 xadvance=1 page=0"]

/-- The scalar values of `"Rust\nRust"`. -/
def rustText : List Nat := [82, 117, 115, 116, 10, 82, 117, 115, 116]

/-- A small `TopToBottom` font containing glyphs for `R`, `u`, `s`, `t`
(ids 82, 117, 115, 116), stored sorted. -/
def wFontC6 : BMFont :=
  { base_height := 40, line_height := 50,
    characters :=
      [{ id := 82, x := 1, y := 1, width := 8, height := 9,
         xoffset := 1, yoffset := 2, xadvance := 9, page_index := 0 },
       { id := 115, x := 2, y := 2, width := 6, height := 7,
         xoffset := 0, yoffset := 4, xadvance := 7, page_index := 0 },
       { id := 116, x := 3, y := 3, width := 5, height := 8,
         xoffset := 0, yoffset := 3, xadvance := 6, page_index := 0 },
       { id := 117, x := 4, y := 4, width := 6, height := 7,
         xoffset := 1, yoffset := 4, xadvance := 8, page_index := 0 }],
    kerning_values := [{ first_char_id := 82, second_char_id := 117, value := -1 }],
    pages := [{ id := 0, file := "font.png" }],
    ordinate_orientation := OrdinateOrientation.TopToBottom }

/-- Shift of a `CharPosition` by `d` in screen y, used to state claim C6's
second-line property. -/
def shiftY (d : Int) (p : CharPosition) : CharPosition :=
  { p with screen_rect := { p.screen_rect with y := p.screen_rect.y + d } }

/-- The `Sections` value `Sections::new` extracts from `wLines`. -/
def wSections : Sections :=
  { common_section := "common lineHeight=50 base=40",
    page_sections := ["page id=0 file=\"font.png\""],
    char_sections := ["char id=97 x=1 y=2 width=3 height=4 xoffset=5 yoffset=6 xadvance=7 page=0",
                      "char id=98 x=10 y=20 width=30 height=40 xoffset=1 yoffset=2 xadvance=3 page=0"],
    kerning_sections := ["kerning first=97 second=98 amount=-2"] }

/-- The decoded `char` records of `wLines`, in declaration order. -/
def wChars : List FontChar :=
  [{ id := 97, x := 1, y := 2, width := 3, height := 4,
     xoffset := 5, yoffset := 6, xadvance := 7, page_index := 0 },
   { id := 98, x := 10, y := 20, width := 30, height := 40,
     xoffset := 1, yoffset := 2, xadvance := 3, page_index := 0 }]

/-- The decoded `Page` records of `wLines`. -/
def wPages : List Page := [{ id := 0, file := "font.png" }]

/-- The font `BMFont::new` builds from `exLinesQuote`: the doubled quotes of
the `file` value are all stripped. -/
def exFontQuote : BMFont :=
  { base_height := 5, line_height := 10,
    characters :=
      [{ id := 65, x := 0, y := 0, width := 1, height := 1,
         xoffset := 0, yoffset := 0, xadvance := 1, page_index := 0 }],
    kerning_values := [],
    pages := [{ id := 0, file := "a" }],
    ordinate_orientation := OrdinateOrientation.TopToBottom }

/-- A font definition whose `char` lines declare id 97 twice with different
metrics (the later duplicate must be dropped). -/
def dLines : List String :=
  ["info face=test",
   "common lineHeight=50 base=40",
   "page id=0 file=\"font.png\"",
   "chars count=3",
   "char id=97 x=1 y=2 width=3 height=4 xoffset=5 yoffset=6 xadvance=7 page=0",
   "char id=98 x=10 y=20 width=30 height=40 xoffset=1 yoffset=2 xadvance=3 page=0",
   "char id=97 x=50 y=60 width=70 height=80 xoffset=9 yoffset=9 xadvance=9 page=1"]

/-- The `Sections` value extracted from `dLines`. -/
def dSections : Sections :=
  { common_section := "common lineHeight=50 base=40",
    page_sections := ["page id=0 file=\"font.png\""],
    char_sections := ["char id=97 x=1 y=2 width=3 height=4 xoffset=5 yoffset=6 xadvance=7 page=0",
                      "char id=98 x=10 y=20 width=30 height=40 xoffset=1 yoffset=2 xadvance=3 page=0",
                      "char id=97 x=50 y=60 width=70 height=80 xoffset=9 yoffset=9 xadvance=9 page=1"],
    kerning_sections := [] }

/-- The decoded `char` records of `dLines`, in declaration order (id 97
twice). -/
def dChars : List FontChar :=
  [{ id := 97, x := 1, y := 2, width := 3, height := 4,
     xoffset := 5, yoffset := 6, xadvance := 7, page_index := 0 },
   { id := 98, x := 10, y := 20, width := 30, height := 40,
     xoffset := 1, yoffset := 2, xadvance := 3, page_index := 0 },
   { id := 97, x := 50, y := 60, width := 70, height := 80,
     xoffset := 9, yoffset := 9, xadvance := 9, page_index := 1 }]

/-- The font `BMFont::new` builds from `dLines`: the duplicate id 97 is
silently dropped, the first-declared metrics are retained. -/
def dFont : BMFont :=
  { base_height := 40, line_height := 50,
    characters :=
      [{ id := 97, x := 1, y := 2, width := 3, height := 4,
         xoffset := 5, yoffset := 6, xadvance := 7, page_index := 0 },
       { id := 98, x := 10, y := 20, width := 30, height := 40,
         xoffset := 1, yoffset := 2, xadvance := 3, page_index := 0 }],
    kerning_values := [],
    pages := [{ id := 0, file := "font.png" }],
    ordinate_orientation := OrdinateOrientation.TopToBottom }

/-! # Theorems -/

/-! ## Binary-search correctness -/

/-- The `bsGo` only answers `.ok m` with `left ≤ m < right`. -/
theorem bsGo_ok_bounds (g : Nat → Ordering) :
    ∀ fuel left right m, bsGo g fuel left right = Except.ok m → left ≤ m ∧ m < right := by
  intro fuel
  induction fuel with
  | zero => intro left right m h; simp [bsGo] at h
  | succ fuel ih =>
    intro left right m h
    unfold bsGo at h
    by_cases hlr : left < right
    · rw [if_pos hlr] at h
      rcases hg : g (left + (right - left) / 2) with _ | _ | _ <;> rw [hg] at h
      · rcases ih _ _ _ h with ⟨h1, h2⟩
        constructor <;> omega
      · cases h
        constructor <;> omega
      · rcases ih _ _ _ h with ⟨h1, h2⟩
        constructor <;> omega
    · rw [if_neg hlr] at h
      cases h

/-- Master specification of `bsGo` on a comparator with threshold structure:
below `lo` the comparator answers `lt`, on `[lo, hi)` it answers `eq`, on
`[hi, n)` it answers `gt`.  With enough fuel the search finds an `eq` index
when the `eq` band is non-empty, and otherwise stops exactly at the
boundary `lo`. -/
theorem bsGo_threshold (g : Nat → Ordering) (n lo hi : Nat)
    (hlohi : lo ≤ hi) (_hhin : hi ≤ n)
    (hlt : ∀ i, i < lo → g i = Ordering.lt)
    (heq : ∀ i, lo ≤ i → i < hi → g i = Ordering.eq)
    (hgt : ∀ i, hi ≤ i → i < n → g i = Ordering.gt) :
    ∀ fuel left right, right - left ≤ fuel → left ≤ lo → hi ≤ right → right ≤ n →
      (lo < hi ∧ ∃ m, lo ≤ m ∧ m < hi ∧ bsGo g fuel left right = Except.ok m) ∨
      (lo = hi ∧ bsGo g fuel left right = Except.error lo) := by
  intro fuel
  induction fuel with
  | zero =>
    intro left right hf h1 h2 h3
    right
    have hw : left = lo ∧ lo = hi := by omega
    rcases hw with ⟨hw1, hw2⟩
    refine ⟨hw2, ?_⟩
    simp [bsGo, hw1]
  | succ fuel ih =>
    intro left right hf h1 h2 h3
    by_cases hlr : left < right
    · have hmid1 : left ≤ left + (right - left) / 2 := by omega
      have hmid2 : left + (right - left) / 2 < right := by omega
      rcases Nat.lt_or_ge (left + (right - left) / 2) lo with hm | hm
      · -- comparator answers lt: move left up
        have hg := hlt _ hm
        have step : bsGo g (fuel + 1) left right =
            bsGo g fuel (left + (right - left) / 2 + 1) right := by
          conv_lhs => rw [bsGo]
          rw [if_pos hlr, hg]
        rw [step]
        exact ih _ _ (by omega) (by omega) h2 h3
      · rcases Nat.lt_or_ge (left + (right - left) / 2) hi with hm2 | hm2
        · -- comparator answers eq: found
          have hg := heq _ hm hm2
          left
          refine ⟨by omega, left + (right - left) / 2, hm, hm2, ?_⟩
          conv_lhs => rw [bsGo]
          rw [if_pos hlr, hg]
        · -- comparator answers gt: move right down
          have hg := hgt _ hm2 (by omega)
          have step : bsGo g (fuel + 1) left right =
              bsGo g fuel left (left + (right - left) / 2) := by
            conv_lhs => rw [bsGo]
            rw [if_pos hlr, hg]
          rw [step]
          exact ih _ _ (by omega) h1 (by omega) (by omega)
    · right
      have hw : left = lo ∧ lo = hi := by omega
      rcases hw with ⟨hw1, hw2⟩
      refine ⟨hw2, ?_⟩
      unfold bsGo
      rw [if_neg hlr, hw1]

/-- A comparator that is monotone along the indices of a list has threshold
structure: `lt` strictly below some `lo`, `eq` on `[lo, hi)`, `gt` from `hi`
on. -/
theorem exists_thresholds (g : Nat → Ordering) (n : Nat)
    (hdown : ∀ i j, i ≤ j → j < n → g j = Ordering.lt → g i = Ordering.lt)
    (hup : ∀ i j, i ≤ j → j < n → g i = Ordering.gt → g j = Ordering.gt) :
    ∃ lo hi, lo ≤ hi ∧ hi ≤ n ∧
      (∀ i, i < lo → g i = Ordering.lt) ∧
      (∀ i, lo ≤ i → i < hi → g i = Ordering.eq) ∧
      (∀ i, hi ≤ i → i < n → g i = Ordering.gt) ∧
      (∀ i, i < n → (g i = Ordering.lt ↔ i < lo)) := by
  have H1 : ∃ lo, (¬(lo < n ∧ g lo = Ordering.lt)) ∧
      ∀ i, i < lo → (i < n ∧ g i = Ordering.lt) := by
    have hPex : ∃ i, ¬(i < n ∧ g i = Ordering.lt) := ⟨n, fun h => absurd h.1 (by omega)⟩
    exact ⟨Nat.find hPex, Nat.find_spec hPex,
      fun i hi => not_not.mp (Nat.find_min hPex hi)⟩
  have H2 : ∃ hi, ((¬ hi < n) ∨ g hi = Ordering.gt) ∧ hi ≤ n ∧
      ∀ i, i < hi → (i < n ∧ g i ≠ Ordering.gt) := by
    have hQex : ∃ i, ¬ i < n ∨ g i = Ordering.gt := ⟨n, Or.inl (by omega)⟩
    refine ⟨Nat.find hQex, Nat.find_spec hQex, Nat.find_min' hQex (Or.inl (by omega)), ?_⟩
    intro i hi
    have h := Nat.find_min hQex hi
    push_neg at h
    exact h
  obtain ⟨lo, hlo1, hlo2⟩ := H1
  obtain ⟨hi, hhi1, hhin, hhi2⟩ := H2
  have hlon : lo ≤ n := by
    by_contra hcon
    exact absurd (hlo2 n (by omega)).1 (by omega)
  have key_ne_lt : ∀ i, lo ≤ i → i < n → g i ≠ Ordering.lt := by
    intro i h1 h2 hglt
    exact hlo1 ⟨by omega, hdown lo i h1 h2 hglt⟩
  have key_gt : ∀ i, hi ≤ i → i < n → g i = Ordering.gt := by
    intro i h1 h2
    have hq : g hi = Ordering.gt := by
      rcases hhi1 with h | h
      · exact absurd (by omega : hi < n) h
      · exact h
    exact hup hi i h1 h2 hq
  have hlohi : lo ≤ hi := by
    by_contra hcon
    push_neg at hcon
    rcases hlo2 hi hcon with ⟨ha, hb⟩
    rcases hhi1 with h | h
    · exact h ha
    · rw [hb] at h
      cases h
  refine ⟨lo, hi, hlohi, hhin, fun i h => (hlo2 i h).2, ?_, key_gt, ?_⟩
  · intro i h1 h2
    have hne1 := key_ne_lt i h1 (hhi2 i h2).1
    have hne2 := (hhi2 i h2).2
    cases hgi : g i
    · exact absurd hgi hne1
    · rfl
    · exact absurd hgi hne2
  · intro i hin
    exact ⟨fun hglt => by
        by_contra hcon
        exact key_ne_lt i (by omega) hin hglt,
      fun h => (hlo2 i h).2⟩

/-- The `binarySearchBy` on a comparator with threshold structure along the list. -/
theorem binarySearchBy_threshold {α : Type _} [Inhabited α] (xs : List α) (f : α → Ordering)
    (lo hi : Nat) (hlohi : lo ≤ hi) (hhin : hi ≤ xs.length)
    (hlt : ∀ i, i < lo → f (xs.getD i default) = Ordering.lt)
    (heq : ∀ i, lo ≤ i → i < hi → f (xs.getD i default) = Ordering.eq)
    (hgt : ∀ i, hi ≤ i → i < xs.length → f (xs.getD i default) = Ordering.gt) :
    (lo < hi ∧ ∃ m, lo ≤ m ∧ m < hi ∧ binarySearchBy xs f = Except.ok m) ∨
    (lo = hi ∧ binarySearchBy xs f = Except.error lo) :=
  bsGo_threshold _ xs.length lo hi hlohi hhin hlt heq hgt xs.length 0 xs.length
    (by omega) (by omega) hhin (Nat.le_refl _)

/-- In a list sorted (non-strictly) by a `Nat` key, the key is monotone in the
(defaulted) index. -/
theorem sorted_key_mono {α : Type _} [Inhabited α] (key : α → Nat) {l : List α}
    (hs : List.Pairwise (fun a b => key a ≤ key b) l) :
    ∀ i j, i ≤ j → j < l.length → key (l.getD i default) ≤ key (l.getD j default) := by
  intro i j hij hj
  rcases Nat.eq_or_lt_of_le hij with rfl | hlt
  · exact Nat.le_refl _
  · have hi : i < l.length := by omega
    rw [List.getD_eq_getElem l default hi, List.getD_eq_getElem l default hj]
    exact List.pairwise_iff_getElem.mp hs i j hi hj hlt

/-- Threshold structure of the comparator `compare (key ·) t` along a list
sorted by `key`. -/
theorem compare_key_thresholds {α : Type _} [Inhabited α] (key : α → Nat) (l : List α)
    (hs : List.Pairwise (fun a b => key a ≤ key b) l) (t : Nat) :
    ∃ lo hi, lo ≤ hi ∧ hi ≤ l.length ∧
      (∀ i, i < lo → compare (key (l.getD i default)) t = Ordering.lt) ∧
      (∀ i, lo ≤ i → i < hi → compare (key (l.getD i default)) t = Ordering.eq) ∧
      (∀ i, hi ≤ i → i < l.length → compare (key (l.getD i default)) t = Ordering.gt) ∧
      (∀ i, i < l.length → (compare (key (l.getD i default)) t = Ordering.lt ↔ i < lo)) := by
  apply exists_thresholds
  · intro i j hij hj hcmp
    rw [Nat.compare_eq_lt] at hcmp ⊢
    exact Nat.lt_of_le_of_lt (sorted_key_mono key hs i j hij hj) hcmp
  · intro i j hij hj hcmp
    rw [Nat.compare_eq_gt] at hcmp ⊢
    exact Nat.lt_of_lt_of_le hcmp (sorted_key_mono key hs i j hij hj)

/-- The `find?` hits the first index where the predicate holds. -/
theorem find?_eq_getD_of_first {α : Type _} [Inhabited α] (p : α → Bool) :
    ∀ (l : List α) (k : Nat), k < l.length →
      (∀ i, i < k → p (l.getD i default) = false) → p (l.getD k default) = true →
      l.find? p = some (l.getD k default) := by
  intro l
  induction l with
  | nil => intro k hk; simp at hk
  | cons a l ih =>
    intro k hk hbefore hp
    cases k with
    | zero =>
      simp only [List.getD_cons_zero] at hp
      simp [List.find?, hp]
    | succ k =>
      have h0 : p a = false := by
        have := hbefore 0 (by omega)
        simpa using this
      simp only [List.getD_cons_succ] at hp ⊢
      rw [List.find?, h0]
      exact ih k (by simpa using hk) (fun i hi => by simpa using hbefore (i + 1) (by omega)) hp

/-- The `find?` misses when the predicate never holds. -/
theorem find?_eq_none_of_all {α : Type _} [Inhabited α] (p : α → Bool) :
    ∀ l : List α, (∀ i, i < l.length → p (l.getD i default) = false) → l.find? p = none := by
  intro l
  induction l with
  | nil => intro _; rfl
  | cons a l ih =>
    intro hall
    have h0 : p a = false := by simpa using hall 0 (by simp)
    rw [List.find?, h0]
    exact ih fun i hi => by simpa using hall (i + 1) (by simpa using Nat.succ_lt_succ hi)

/-- An element of `l.take n` sits at an index below `n`. -/
theorem mem_take_idx {α : Type _} [Inhabited α] {x : α} :
    ∀ (l : List α) (n : Nat), x ∈ l.take n → ∃ i, i < n ∧ i < l.length ∧ x = l.getD i default := by
  intro l
  induction l with
  | nil => intro n h; simp at h
  | cons a l ih =>
    intro n h
    cases n with
    | zero => simp at h
    | succ n =>
      rw [List.take_succ_cons, List.mem_cons] at h
      rcases h with rfl | h
      · exact ⟨0, by omega, by simp, by simp⟩
      · rcases ih n h with ⟨i, h1, h2, h3⟩
        exact ⟨i + 1, by omega, by simpa using Nat.succ_lt_succ h2, by simpa using h3⟩

/-- An element of `l.drop n` sits at an index at least `n`. -/
theorem mem_drop_idx {α : Type _} [Inhabited α] {x : α} :
    ∀ (l : List α) (n : Nat), x ∈ l.drop n → ∃ i, n ≤ i ∧ i < l.length ∧ x = l.getD i default := by
  intro l
  induction l with
  | nil => intro n h; simp at h
  | cons a l ih =>
    intro n h
    cases n with
    | zero =>
      rw [List.drop_zero] at h
      rcases List.mem_iff_getElem.mp h with ⟨i, hi, hx⟩
      exact ⟨i, by omega, hi, by rw [List.getD_eq_getElem _ default hi, hx]⟩
    | succ n =>
      rw [List.drop_succ_cons] at h
      rcases ih n h with ⟨i, h1, h2, h3⟩
      exact ⟨i + 1, by omega, by simpa using Nat.succ_lt_succ h2, by simpa using h3⟩

/-- The `insertIdx` as take-cons-drop. -/
theorem insertIdx_eq_take_cons_drop {α : Type _} (a : α) :
    ∀ (n : Nat) (l : List α), n ≤ l.length → l.insertIdx n a = l.take n ++ a :: l.drop n
  | 0, l, _ => by simp [List.insertIdx_zero]
  | n + 1, [], h => by simp at h
  | n + 1, x :: l, h => by
    rw [List.insertIdx_succ_cons]
    simp only [List.take_succ_cons, List.drop_succ_cons, List.cons_append]
    rw [insertIdx_eq_take_cons_drop a n l (by simpa using h)]

/-- The `insertIdx` preserves `Pairwise` when the new element relates correctly to
the two halves. -/
theorem pairwise_insertIdx {α : Type _} {R : α → α → Prop} {l : List α} {a : α} {n : Nat}
    (hn : n ≤ l.length) (hP : l.Pairwise R)
    (htake : ∀ x ∈ l.take n, R x a) (hdrop : ∀ x ∈ l.drop n, R a x) :
    (l.insertIdx n a).Pairwise R := by
  rw [insertIdx_eq_take_cons_drop a n l hn, List.pairwise_append]
  have hsplit : l.take n ++ l.drop n = l := List.take_append_drop n l
  have hP' : (l.take n ++ l.drop n).Pairwise R := by rw [hsplit]; exact hP
  rw [List.pairwise_append] at hP'
  rcases hP' with ⟨hTake, hDrop, hCross⟩
  refine ⟨hTake, List.pairwise_cons.mpr ⟨hdrop, hDrop⟩, ?_⟩
  intro x hx y hy
  rcases List.mem_cons.mp hy with rfl | hy
  · exact htake x hx
  · exact hCross x hx y hy

/-- On a strictly sorted character table, the binary-search glyph lookup agrees
with linear search for the id. -/
theorem lookupChar_eq_find? {chars : List FontChar}
    (hs : List.Pairwise (fun a b => a.id < b.id) chars) (cid : Nat) :
    lookupChar chars cid = chars.find? (fun c => c.id == cid) := by
  have hs' : List.Pairwise (fun a b : FontChar => a.id ≤ b.id) chars :=
    hs.imp (fun h => Nat.le_of_lt h)
  obtain ⟨lo, hi, h1, h2, hlt, heq, hgt, hiff⟩ :=
    compare_key_thresholds FontChar.id chars hs' cid
  rcases binarySearchBy_threshold chars (fun probe => compare probe.id cid) lo hi h1 h2
      hlt heq hgt with ⟨hlohi, m, hm1, hm2, hbs⟩ | ⟨hlohi, hbs⟩
  · have hmn : m < chars.length := by omega
    have hmid : (chars.getD m default).id = cid := Nat.compare_eq_eq.mp (heq m hm1 hm2)
    have hhi_lo : hi ≤ lo + 1 := by
      by_contra hcon
      push_neg at hcon
      have e1 : (chars.getD lo default).id = cid :=
        Nat.compare_eq_eq.mp (heq lo (Nat.le_refl _) (by omega))
      have e2 : (chars.getD (lo + 1) default).id = cid :=
        Nat.compare_eq_eq.mp (heq (lo + 1) (by omega) (by omega))
      have hstep := List.pairwise_iff_getElem.mp hs lo (lo + 1) (by omega) (by omega) (by omega)
      rw [← List.getD_eq_getElem chars default (show lo < chars.length by omega),
        ← List.getD_eq_getElem chars default (show lo + 1 < chars.length by omega)] at hstep
      omega
    unfold lookupChar
    rw [hbs, find?_eq_getD_of_first (fun c => c.id == cid) chars m hmn ?before ?hit]
    case before =>
      intro i hi2
      have hilt : (chars.getD i default).id < cid :=
        Nat.compare_eq_lt.mp (hlt i (by omega))
      exact beq_eq_false_iff_ne.mpr (Nat.ne_of_lt hilt)
    case hit => exact beq_iff_eq.mpr hmid
  · unfold lookupChar
    rw [hbs, find?_eq_none_of_all]
    intro i hi2
    rcases Nat.lt_or_ge i lo with hc | hc
    · exact beq_eq_false_iff_ne.mpr (Nat.ne_of_lt (Nat.compare_eq_lt.mp (hlt i hc)))
    · have : cid < (chars.getD i default).id :=
        Nat.compare_eq_gt.mp (hgt i (by omega) hi2)
      exact beq_eq_false_iff_ne.mpr (Nat.ne_of_gt this)

/-- One `insertChar` step: the table stays strictly sorted and its linear-search
semantics is "keep the old binding, else adopt the new one". -/
theorem insertChar_spec {chars : List FontChar}
    (hs : List.Pairwise (fun a b => a.id < b.id) chars) (c : FontChar) :
    (insertChar chars c).Pairwise (fun a b => a.id < b.id) ∧
    ∀ cid, (insertChar chars c).find? (fun x => x.id == cid) =
      Option.or (chars.find? (fun x => x.id == cid))
        (if c.id = cid then some c else none) := by
  have hs' : List.Pairwise (fun a b : FontChar => a.id ≤ b.id) chars :=
    hs.imp (fun h => Nat.le_of_lt h)
  obtain ⟨lo, hi, h1, h2, hlt, heq, hgt, hiff⟩ :=
    compare_key_thresholds FontChar.id chars hs' c.id
  rcases binarySearchBy_threshold chars (fun probe => compare probe.id c.id) lo hi h1 h2
      hlt heq hgt with ⟨hlohi, m, hm1, hm2, hbs⟩ | ⟨hlohi, hbs⟩
  · -- id already present: skip
    have hskip : insertChar chars c = chars := by
      unfold insertChar
      rw [hbs]
    rw [hskip]
    refine ⟨hs, fun cid => ?_⟩
    by_cases hcid : c.id = cid
    · subst hcid
      have hex : (chars.find? (fun x => x.id == c.id)).isSome := by
        rw [List.find?_isSome]
        refine ⟨chars.getD m default, ?_, ?_⟩
        · rw [List.getD_eq_getElem chars default (by omega)]
          exact List.getElem_mem _
        · exact beq_iff_eq.mpr (Nat.compare_eq_eq.mp (heq m hm1 hm2))
      rcases hv : chars.find? (fun x => x.id == c.id) with _ | v
      · rw [hv] at hex; cases hex
      · rw [hv]; rfl
    · simp [hcid, Option.or_none]
  · -- id absent: insert at the boundary
    have hins : insertChar chars c = chars.insertIdx lo c := by
      unfold insertChar
      rw [hbs]
    have hlon : lo ≤ chars.length := by omega
    have hnone : chars.find? (fun x => x.id == c.id) = none := by
      apply find?_eq_none_of_all
      intro i hi2
      rcases Nat.lt_or_ge i lo with hc | hc
      · exact beq_eq_false_iff_ne.mpr (Nat.ne_of_lt (Nat.compare_eq_lt.mp (hlt i hc)))
      · exact beq_eq_false_iff_ne.mpr
          (Nat.ne_of_gt (Nat.compare_eq_gt.mp (hgt i (by omega) hi2)))
    have htake : ∀ x ∈ chars.take lo, x.id < c.id := by
      intro x hx
      rcases mem_take_idx chars lo hx with ⟨i, hi2, hi3, rfl⟩
      exact Nat.compare_eq_lt.mp (hlt i hi2)
    have hdrop : ∀ x ∈ chars.drop lo, c.id < x.id := by
      intro x hx
      rcases mem_drop_idx chars lo hx with ⟨i, hi2, hi3, rfl⟩
      exact Nat.compare_eq_gt.mp (hgt i (by omega) hi3)
    constructor
    · rw [hins]
      exact pairwise_insertIdx hlon hs htake hdrop
    · intro cid
      rw [hins, insertIdx_eq_take_cons_drop c lo chars hlon, List.find?_append]
      have hsplitfind : chars.find? (fun x => x.id == cid) =
          Option.or ((chars.take lo).find? (fun x => x.id == cid))
            ((chars.drop lo).find? (fun x => x.id == cid)) := by
        conv_lhs => rw [← List.take_append_drop lo chars]
        exact List.find?_append
      by_cases hcid : c.id = cid
      · subst hcid
        have htnone : (chars.take lo).find? (fun x => x.id == c.id) = none := by
          rw [List.find?_eq_none]
          intro x hx
          simp only [beq_iff_eq]
          exact Nat.ne_of_lt (htake x hx)
        rw [hnone, htnone, List.find?]
        simp [Option.or]
      · have hcfalse : (c.id == cid) = false := beq_eq_false_iff_ne.mpr hcid
        rw [hsplitfind, List.find?, hcfalse]
        simp [hcid, Option.or_none]

/-- One `insertKerning` step keeps the kerning table sorted by `first_char_id`
(duplicate keys allowed; both `Ok` and `Err` search results insert). -/
theorem insertKerning_sorted {ks : List KerningValue}
    (hs : List.Pairwise (fun a b => a.first_char_id ≤ b.first_char_id) ks)
    (k : KerningValue) :
    (insertKerning ks k).Pairwise (fun a b => a.first_char_id ≤ b.first_char_id) := by
  obtain ⟨lo, hi, h1, h2, hlt, heq, hgt, hiff⟩ :=
    compare_key_thresholds KerningValue.first_char_id ks hs k.first_char_id
  have htake : ∀ idx, idx ≤ hi → ∀ x ∈ ks.take idx, x.first_char_id ≤ k.first_char_id := by
    intro idx hidx x hx
    rcases mem_take_idx ks idx hx with ⟨i, hi2, hi3, rfl⟩
    rcases Nat.lt_or_ge i lo with hc | hc
    · exact Nat.le_of_lt (Nat.compare_eq_lt.mp (hlt i hc))
    · exact Nat.le_of_eq (Nat.compare_eq_eq.mp (heq i hc (by omega)))
  have hdrop : ∀ idx, lo ≤ idx → ∀ x ∈ ks.drop idx, k.first_char_id ≤ x.first_char_id := by
    intro idx hidx x hx
    rcases mem_drop_idx ks idx hx with ⟨i, hi2, hi3, rfl⟩
    rcases Nat.lt_or_ge i hi with hc | hc
    · exact Nat.le_of_eq (Nat.compare_eq_eq.mp (heq i (by omega) hc)).symm
    · exact Nat.le_of_lt (Nat.compare_eq_gt.mp (hgt i hc hi3))
  rcases binarySearchBy_threshold ks (fun probe => compare probe.first_char_id k.first_char_id)
      lo hi h1 h2 hlt heq hgt with ⟨hlohi, m, hm1, hm2, hbs⟩ | ⟨hlohi, hbs⟩
  · have hins : insertKerning ks k = ks.insertIdx m k := by
      unfold insertKerning
      rw [hbs]
    rw [hins]
    exact pairwise_insertIdx (by omega) hs (htake m (by omega)) (hdrop m hm1)
  · have hins : insertKerning ks k = ks.insertIdx lo k := by
      unfold insertKerning
      rw [hbs]
    rw [hins]
    exact pairwise_insertIdx (by omega) hs (htake lo (by omega)) (hdrop lo (Nat.le_refl _))

/-- The kerning table built by `BMFont::new` is sorted by `first_char_id`. -/
theorem buildKernings_sorted (ks : List KerningValue) :
    (buildKernings ks).Pairwise (fun a b => a.first_char_id ≤ b.first_char_id) := by
  suffices h : ∀ acc, acc.Pairwise (fun a b : KerningValue => a.first_char_id ≤ b.first_char_id) →
      (ks.foldl insertKerning acc).Pairwise
        (fun a b => a.first_char_id ≤ b.first_char_id) from h [] (by simp)
  induction ks with
  | nil => intro acc hacc; exact hacc
  | cons k rest ih =>
    intro acc hacc
    exact ih _ (insertKerning_sorted hacc k)

/-- On a non-empty suffix whose keys all dominate `k` and which is sorted,
`takeWhile (key == k)` and `filter (key == k)` agree. -/
theorem takeWhile_eq_filter_of_lower_bound (k : Nat) :
    ∀ s : List KerningValue,
      List.Pairwise (fun a b => a.first_char_id ≤ b.first_char_id) s →
      (∀ e ∈ s, k ≤ e.first_char_id) →
      s.takeWhile (fun kv => kv.first_char_id == k) =
        s.filter (fun kv => kv.first_char_id == k) := by
  intro s
  induction s with
  | nil => intro _ _; rfl
  | cons e rest ih =>
    intro hs hlb
    by_cases he : e.first_char_id = k
    · have hp : (e.first_char_id == k) = true := beq_iff_eq.mpr he
      simp only [List.takeWhile, List.filter, hp]
      rw [ih hs.of_cons (fun x hx => hlb x (List.mem_cons_of_mem e hx))]
    · have hk : k < e.first_char_id :=
        Nat.lt_of_le_of_ne (hlb e (List.mem_cons_self e rest)) (fun h => he h.symm)
      have hp : (e.first_char_id == k) = false := beq_eq_false_iff_ne.mpr he
      simp only [List.takeWhile, List.filter, hp]
      symm
      rw [List.filter_eq_nil_iff]
      intro x hx
      have hex : e.first_char_id ≤ x.first_char_id :=
        (List.pairwise_cons.mp hs).1 x hx
      simp only [beq_iff_eq]
      omega

/-- A comparator that never answers `eq` can only drive `bsGo` to an `Err`. -/
theorem bsGo_never_eq (g : Nat → Ordering) (hne : ∀ i, g i ≠ Ordering.eq) :
    ∀ fuel left right, ∃ j, bsGo g fuel left right = Except.error j := by
  intro fuel
  induction fuel with
  | zero => intro left right; exact ⟨left, rfl⟩
  | succ fuel ih =>
    intro left right
    by_cases hlr : left < right
    · rcases hg : g (left + (right - left) / 2) with _ | _ | _
      · rcases ih (left + (right - left) / 2 + 1) right with ⟨j, hj⟩
        refine ⟨j, ?_⟩
        conv_lhs => rw [bsGo]
        rw [if_pos hlr, hg]
        exact hj
      · exact absurd hg (hne _)
      · rcases ih left (left + (right - left) / 2) with ⟨j, hj⟩
        refine ⟨j, ?_⟩
        conv_lhs => rw [bsGo]
        rw [if_pos hlr, hg]
        exact hj
    · refine ⟨left, ?_⟩
      conv_lhs => rw [bsGo]
      rw [if_neg hlr]

/-- The doubled-key comparator of `find_kerning_values` can never answer `eq`:
the probe keys are even, the needle is odd.  Hence the `unwrap_err` in the
source never panics. -/
theorem find_kerning_never_ok (ks : List KerningValue) (k : Nat) :
    ∃ j, binarySearchBy ks
      (fun probe => compare ((probe.first_char_id * 2) % u32Mod) (kerningNeedle k)) =
        Except.error j := by
  apply bsGo_never_eq
  intro i hcmp
  have heq := Nat.compare_eq_eq.mp hcmp
  have h1 : ((ks.getD i default).first_char_id * 2) % u32Mod % 2 = 0 := by
    simp only [u32Mod]
    omega
  have h2 : kerningNeedle k % 2 = 1 := by
    simp only [kerningNeedle, u32Mod]
    omega
  rw [heq] at h1
  omega

/-- On a kerning table that is sorted by `first_char_id` with every key in
`[1, 2^31)`, `find_kerning_values` returns exactly the entries whose
`first_char_id` matches the query, in storage order — for every `u32` query
key (the keys `k = 0`, `k ≡ 0 (mod 2^31)` and `k ≥ 2^31` then have no matching
entry, and the lookup indeed yields nothing for them). -/
theorem find_kerning_eq_filter (ks : List KerningValue)
    (hs : List.Pairwise (fun a b => a.first_char_id ≤ b.first_char_id) ks)
    (hr : ∀ kv ∈ ks, 1 ≤ kv.first_char_id ∧ kv.first_char_id < i32Half)
    (k : Nat) :
    find_kerning_values ks k = ks.filter (fun kv => kv.first_char_id == k) := by
  have hkey_sorted : List.Pairwise
      (fun a b : KerningValue =>
        (a.first_char_id * 2) % u32Mod ≤ (b.first_char_id * 2) % u32Mod) ks := by
    refine List.Pairwise.imp_of_mem ?_ hs
    intro a b ha hb hab
    have h1 := hr a ha
    have h2 := hr b hb
    simp only [u32Mod, i32Half] at *
    omega
  obtain ⟨lo, hi, h1, h2, hlt, heq, hgt, hiff⟩ :=
    compare_key_thresholds (fun kv => (kv.first_char_id * 2) % u32Mod) ks hkey_sorted
      (kerningNeedle k)
  have hparity : ∀ i, i < ks.length →
      compare (((ks.getD i default).first_char_id * 2) % u32Mod) (kerningNeedle k) ≠
        Ordering.eq := by
    intro i hin hcmp
    have heq2 := Nat.compare_eq_eq.mp hcmp
    have ha : ((ks.getD i default).first_char_id * 2) % u32Mod % 2 = 0 := by
      simp only [u32Mod]
      omega
    have hb : kerningNeedle k % 2 = 1 := by
      simp only [kerningNeedle, u32Mod]
      omega
    rw [heq2] at ha
    omega
  have hlohi : lo = hi := by
    by_contra hcon
    have hlt2 : lo < hi := by omega
    exact hparity lo (by omega) (heq lo (Nat.le_refl _) hlt2)
  have hbs : binarySearchBy ks
      (fun probe => compare ((probe.first_char_id * 2) % u32Mod) (kerningNeedle k)) =
        Except.error lo := by
    rcases binarySearchBy_threshold ks
        (fun probe => compare ((probe.first_char_id * 2) % u32Mod) (kerningNeedle k))
        lo hi h1 h2 hlt heq hgt with ⟨hc, _⟩ | ⟨_, hres⟩
    · omega
    · exact hres
  have hstart : find_kerning_values ks k =
      (ks.drop lo).takeWhile (fun kv => kv.first_char_id == k) := by
    unfold find_kerning_values
    rw [hbs]
    rfl
  rw [hstart]
  have hkeyd : ∀ i, i < ks.length →
      ((ks.getD i default).first_char_id * 2) % u32Mod = (ks.getD i default).first_char_id * 2 := by
    intro i hin
    have hmem : ks.getD i default ∈ ks := by
      rw [List.getD_eq_getElem ks default hin]
      exact List.getElem_mem _
    have := hr _ hmem
    simp only [u32Mod, i32Half] at *
    omega
  have hrd : ∀ i, i < ks.length →
      1 ≤ (ks.getD i default).first_char_id ∧ (ks.getD i default).first_char_id < i32Half := by
    intro i hin
    apply hr
    rw [List.getD_eq_getElem ks default hin]
    exact List.getElem_mem _
  by_cases hx : (k * 2) % u32Mod = 0
  · -- the needle wraps to `2^32 - 1`: every probe key is below it
    have hneedle : kerningNeedle k = u32Mod - 1 := by
      simp only [kerningNeedle, u32Mod] at *
      omega
    have hlo_n : lo = ks.length := by
      have hall : ∀ i, i < ks.length → i < lo := by
        intro i hin
        rw [← hiff i hin, Nat.compare_eq_lt, hneedle, hkeyd i hin]
        have := hrd i hin
        simp only [u32Mod, i32Half] at *
        omega
      by_contra hcon
      rcases Nat.lt_or_ge lo ks.length with hc | hc
      · exact absurd (hall lo hc) (by omega)
      · omega
    rw [hlo_n, List.drop_length, List.takeWhile_nil]
    symm
    rw [List.filter_eq_nil_iff]
    intro kv hkv
    have := hr kv hkv
    simp only [beq_iff_eq, i32Half, u32Mod] at *
    omega
  · -- the needle is `2k - 1` reduced mod `2^32`
    have hxlt : (k * 2) % u32Mod < u32Mod := by
      simp only [u32Mod]
      omega
    have hneedle : kerningNeedle k = (k * 2) % u32Mod - 1 := by
      simp only [kerningNeedle, u32Mod] at *
      omega
    by_cases hk : k < i32Half
    · -- main case: `1 ≤ k < 2^31`
      have hx2k : (k * 2) % u32Mod = k * 2 := by
        simp only [u32Mod, i32Half] at *
        omega
      have hk1 : 1 ≤ k := by
        by_contra hcon
        simp only [u32Mod] at hx
        omega
      have hchar : ∀ i, i < ks.length →
          (i < lo ↔ (ks.getD i default).first_char_id < k) := by
        intro i hin
        rw [← hiff i hin, Nat.compare_eq_lt, hneedle, hkeyd i hin, hx2k]
        omega
      have hfilter_take : (ks.take lo).filter (fun kv => kv.first_char_id == k) = [] := by
        rw [List.filter_eq_nil_iff]
        intro kv hkv
        rcases mem_take_idx ks lo hkv with ⟨i, hi2, hi3, rfl⟩
        have := (hchar i hi3).mp hi2
        simp only [beq_iff_eq]
        omega
      conv_rhs => rw [← List.take_append_drop lo ks, List.filter_append]
      rw [hfilter_take, List.nil_append]
      apply takeWhile_eq_filter_of_lower_bound
      · exact hs.drop
      · intro e he
        rcases mem_drop_idx ks lo he with ⟨i, hi2, hi3, rfl⟩
        have := (hchar i hi3)
        omega
    · -- `k ≥ 2^31`: no stored key can match
      have hfilter : ks.filter (fun kv => kv.first_char_id == k) = [] := by
        rw [List.filter_eq_nil_iff]
        intro kv hkv
        have := hr kv hkv
        simp only [beq_iff_eq, i32Half] at *
        omega
      rw [hfilter]
      cases hd : ks.drop lo with
      | nil => rfl
      | cons e tl =>
        have hmem : e ∈ ks := by
          have hin : e ∈ ks.drop lo := by
            rw [hd]
            exact List.mem_cons_self e tl
          exact List.mem_of_mem_drop hin
        have := hr e hmem
        have hp : (e.first_char_id == k) = false := by
          simp only [beq_eq_false_iff_ne, i32Half] at *
          omega
        simp [List.takeWhile, hp]

/-- Folding `insertChar` keeps the table strictly sorted, and the resulting
linear-search semantics is "first binding wins": the accumulator's binding if
present, else the first occurrence in the remaining input. -/
theorem foldl_insertChar_spec :
    ∀ (cs acc : List FontChar), acc.Pairwise (fun a b => a.id < b.id) →
      (cs.foldl insertChar acc).Pairwise (fun a b => a.id < b.id) ∧
      ∀ cid, (cs.foldl insertChar acc).find? (fun x => x.id == cid) =
        Option.or (acc.find? (fun x => x.id == cid)) (cs.find? (fun x => x.id == cid)) := by
  intro cs
  induction cs with
  | nil =>
    intro acc hacc
    refine ⟨hacc, fun cid => ?_⟩
    rw [List.foldl_nil, List.find?_nil, Option.or_none]
  | cons c rest ih =>
    intro acc hacc
    obtain ⟨hsorted1, hfind1⟩ := insertChar_spec hacc c
    obtain ⟨hsorted2, hfind2⟩ := ih (insertChar acc c) hsorted1
    refine ⟨hsorted2, fun cid => ?_⟩
    rw [List.foldl_cons, hfind2 cid, hfind1 cid, Option.or_assoc, List.find?]
    by_cases hcid : c.id = cid
    · have hp : (c.id == cid) = true := beq_iff_eq.mpr hcid
      rw [hp, if_pos hcid]
      rfl
    · have hp : (c.id == cid) = false := beq_eq_false_iff_ne.mpr hcid
      rw [hp, if_neg hcid, Option.none_or]

/-- Characterisation: the glyph table built by `BMFont::new` is strictly sorted
by id. -/
theorem buildCharacters_sorted (cs : List FontChar) :
    (buildCharacters cs).Pairwise (fun a b => a.id < b.id) :=
  (foldl_insertChar_spec cs [] (List.Pairwise.nil)).1

/-- Characterisation: linear search in the built glyph table returns the
first-declared record with the id. -/
theorem buildCharacters_find? (cs : List FontChar) (cid : Nat) :
    (buildCharacters cs).find? (fun x => x.id == cid) = cs.find? (fun x => x.id == cid) := by
  have h := (foldl_insertChar_spec cs [] (List.Pairwise.nil)).2 cid
  rw [buildCharacters, h, List.find?_nil, Option.none_or]

/-- Destructuring a successful `BMFont::new` run into its pipeline stages. -/
theorem bmfontNew_ok_elim {lines : List String} {orient : OrdinateOrientation} {font : BMFont}
    (h : bmfontNew lines orient = Except.ok font) :
    ∃ sections lh bh pages charRecs kernRecs,
      sectionsNew lines = Except.ok sections ∧
      extract_component_value parseU32 ((splitWhitespace sections.common_section).get? 1)
        "common" "lineHeight" = Except.ok lh ∧
      extract_component_value parseU32 ((splitWhitespace sections.common_section).get? 2)
        "common" "base" = Except.ok bh ∧
      sections.page_sections.mapM pageNew = Except.ok pages ∧
      sections.char_sections.mapM charNew = Except.ok charRecs ∧
      sections.kerning_sections.mapM kerningNew = Except.ok kernRecs ∧
      font = { base_height := bh, line_height := lh,
               characters := buildCharacters charRecs,
               kerning_values := buildKernings kernRecs,
               pages := pages, ordinate_orientation := orient } := by
  unfold bmfontNew at h
  cases hsec : sectionsNew lines with
  | error e => rw [hsec] at h; simp only [bind, Except.bind] at h; exact Except.noConfusion h
  | ok sections =>
    rw [hsec] at h
    simp only [bind, Except.bind] at h
    cases hlh : extract_component_value parseU32
        ((splitWhitespace sections.common_section).get? 1) "common" "lineHeight" with
    | error e => rw [hlh] at h; simp only [liftCfg] at h; exact Except.noConfusion h
    | ok lh =>
      rw [hlh] at h
      simp only [liftCfg] at h
      cases hbh : extract_component_value parseU32
          ((splitWhitespace sections.common_section).get? 2) "common" "base" with
      | error e => rw [hbh] at h; simp only [liftCfg] at h; exact Except.noConfusion h
      | ok bh =>
        rw [hbh] at h
        simp only [liftCfg] at h
        cases hpg : sections.page_sections.mapM pageNew with
        | error e => rw [hpg] at h; exact Except.noConfusion h
        | ok pages =>
          rw [hpg] at h
          simp only [] at h
          cases hch : sections.char_sections.mapM charNew with
          | error e => rw [hch] at h; exact Except.noConfusion h
          | ok charRecs =>
            rw [hch] at h
            simp only [] at h
            cases hkn : sections.kerning_sections.mapM kerningNew with
            | error e => rw [hkn] at h; exact Except.noConfusion h
            | ok kernRecs =>
              rw [hkn] at h
              simp only [] at h
              cases h
              exact ⟨sections, lh, bh, pages, charRecs, kernRecs,
                rfl, hlh, hbh, hpg, hch, hkn, rfl⟩

/-- The `u32 as i32` cast is the identity below `2^31`. -/
theorem toI32_eq_of_lt {n : Nat} (h : n < i32Half) : toI32 n = (n : Int) := by
  have h2 : n % u32Mod = n := Nat.mod_eq_of_lt (by simp only [u32Mod, i32Half] at *; omega)
  unfold toI32
  rw [h2, if_pos h]

/-- Under the in-range hypotheses, the source's kerning adjustment equals the
specification's (first matching entry of the preceding glyph). -/
theorem kerningValueFor_eq_claim {ks : List KerningValue}
    (hs : List.Pairwise (fun a b => a.first_char_id ≤ b.first_char_id) ks)
    (hr : ∀ kv ∈ ks, 1 ≤ kv.first_char_id ∧ kv.first_char_id < i32Half)
    (prev : Option Nat) (cid : Nat) :
    kerningValueFor ks prev cid = claimKerningValueFor ks prev cid := by
  cases prev with
  | none => rfl
  | some p =>
    simp only [kerningValueFor, claimKerningValueFor]
    rw [find_kerning_eq_filter ks hs hr p]

/-- A successful glyph lookup returns a member of the table. -/
theorem lookupChar_mem {chars : List FontChar} {cid : Nat} {fc : FontChar}
    (h : lookupChar chars cid = some fc) : fc ∈ chars := by
  unfold lookupChar at h
  cases hbs : binarySearchBy chars (fun probe => compare probe.id cid) with
  | error i => rw [hbs] at h; cases h
  | ok m =>
    rw [hbs] at h
    cases h
    have hb := bsGo_ok_bounds _ _ _ _ _ hbs
    rw [List.getD_eq_getElem chars default (by omega)]
    exact List.getElem_mem _

/-- Every glyph the permissive resolver emits is a member of the table. -/
theorem resolveLinePermissive_mem {chars : List FontChar} :
    ∀ (l : List Nat) (fc : FontChar), fc ∈ resolveLinePermissive chars l → fc ∈ chars := by
  intro l
  induction l with
  | nil => intro fc h; cases h
  | cons c rest ih =>
    intro fc h
    unfold resolveLinePermissive at h
    by_cases hc : c < 65536
    · rw [if_pos hc] at h
      cases hl : lookupChar chars c with
      | none => rw [hl] at h; exact ih fc h
      | some fc2 =>
        rw [hl] at h
        rcases List.mem_cons.mp h with rfl | h2
        · exact lookupChar_mem hl
        · exact ih fc h2
    · rw [if_neg hc] at h
      exact ih fc h

/-- Under the in-range hypotheses, the source's per-line layout equals the
specification's transcription. -/
theorem layoutLineGo_eq_claim (font : BMFont)
    (hks : List.Pairwise (fun a b => a.first_char_id ≤ b.first_char_id) font.kerning_values)
    (hkr : ∀ kv ∈ font.kerning_values, 1 ≤ kv.first_char_id ∧ kv.first_char_id < i32Half)
    (hbase : font.base_height < i32Half) :
    ∀ (cs : List FontChar),
      (∀ c ∈ cs, c.x < i32Half ∧ c.y < i32Half ∧ c.height < i32Half) →
      ∀ x y prev, layoutLineGo font cs x y prev = claimLayoutLineGo font cs x y prev := by
  intro cs
  induction cs with
  | nil => intro _ x y prev; rfl
  | cons c rest ih =>
    intro hb x y prev
    obtain ⟨hcx, hcy, hch⟩ := hb c (List.mem_cons_self c rest)
    have hrest := fun c2 h2 => hb c2 (List.mem_cons_of_mem c h2)
    unfold layoutLineGo claimLayoutLineGo
    rw [kerningValueFor_eq_claim hks hkr prev c.id]
    rw [toI32_eq_of_lt hcx, toI32_eq_of_lt hcy, toI32_eq_of_lt hch, toI32_eq_of_lt hbase]
    simp only [ih hrest]

/-- Under the in-range hypothesis on `line_height`, the per-line vertical
advance equals the specification's. -/
theorem dirOf_eq_claim {font : BMFont} (hlh : font.line_height < i32Half) :
    dirOf font = claimDirOf font := by
  unfold dirOf claimDirOf
  rw [toI32_eq_of_lt hlh]

/-- Under the in-range hypotheses, the source's whole-text layout equals the
specification's transcription. -/
theorem layoutGo_eq_claim (font : BMFont)
    (hks : List.Pairwise (fun a b => a.first_char_id ≤ b.first_char_id) font.kerning_values)
    (hkr : ∀ kv ∈ font.kerning_values, 1 ≤ kv.first_char_id ∧ kv.first_char_id < i32Half)
    (hchars : ∀ c ∈ font.characters, c.x < i32Half ∧ c.y < i32Half ∧ c.height < i32Half)
    (hbase : font.base_height < i32Half) (hlh : font.line_height < i32Half) :
    ∀ (ls : List (List Nat)) (y : Int), layoutGo font ls y = claimLayoutGo font ls y := by
  intro ls
  induction ls with
  | nil => intro y; rfl
  | cons l rest ih =>
    intro y
    unfold layoutGo claimLayoutGo
    rw [dirOf_eq_claim hlh, ih]
    unfold layoutLine claimLayoutLine
    rw [layoutLineGo_eq_claim font hks hkr hbase _
      (fun c hc => hchars c (resolveLinePermissive_mem l c hc)) 0 y none]

/-- Per-line layout commutes with a vertical shift: only `screen_rect.y` moves. -/
theorem layoutLineGo_shift (font : BMFont) (d : Int) :
    ∀ (cs : List FontChar) (x y : Int) (prev : Option Nat),
      layoutLineGo font cs x (y + d) prev =
        (layoutLineGo font cs x y prev).map (shiftY d) := by
  intro cs
  induction cs with
  | nil => intro x y prev; rfl
  | cons c rest ih =>
    intro x y prev
    unfold layoutLineGo
    rw [List.map_cons]
    have hy : ∀ sy : Int, (⟨⟨toI32 c.x, toI32 c.y, c.width, c.height⟩,
        ⟨x + c.xoffset + kerningValueFor font.kerning_values prev c.id, sy + d, c.width, c.height⟩,
        c.page_index⟩ : CharPosition) =
        shiftY d ⟨⟨toI32 c.x, toI32 c.y, c.width, c.height⟩,
          ⟨x + c.xoffset + kerningValueFor font.kerning_values prev c.id, sy, c.width, c.height⟩,
          c.page_index⟩ := by
      intro sy
      simp [shiftY]
    cases font.ordinate_orientation <;>
      simp only [ih] <;>
      refine congrArg₂ _ ?_ rfl
    · rw [← hy (y + toI32 font.base_height - c.yoffset - toI32 c.height)]
      ring_nf
    · rw [← hy (y + c.yoffset)]
      ring_nf

/-- Number of positions emitted for a line = number of resolved glyphs. -/
theorem layoutLineGo_length (font : BMFont) :
    ∀ (cs : List FontChar) (x y : Int) (prev : Option Nat),
      (layoutLineGo font cs x y prev).length = cs.length := by
  intro cs
  induction cs with
  | nil => intro x y prev; rfl
  | cons c rest ih =>
    intro x y prev
    unfold layoutLineGo
    rw [List.length_cons, ih]
    rfl

/-- Generalised accumulator law: laying out lines numbered from `n` with the
accumulator at `y0 + n·dir`. -/
theorem layoutGo_enumFrom (font : BMFont) :
    ∀ (ls : List (List Nat)) (n : Nat) (y0 : Int),
      layoutGo font ls (y0 + n * dirOf font) =
        ((List.enumFrom n ls).map (fun p =>
          layoutLine font (resolveLinePermissive font.characters p.2)
            (y0 + p.1 * dirOf font))).flatten := by
  intro ls
  induction ls with
  | nil => intro n y0; rfl
  | cons l rest ih =>
    intro n y0
    show layoutLine font (resolveLinePermissive font.characters l) (y0 + n * dirOf font) ++
        layoutGo font rest (y0 + n * dirOf font + dirOf font) = _
    rw [List.enumFrom, List.map_cons, List.flatten_cons]
    refine congrArg₂ _ rfl ?_
    have harg : y0 + n * dirOf font + dirOf font = y0 + (n + 1 : Nat) * dirOf font := by
      push_cast
      ring
    rw [harg, ih (n + 1) y0]

/-- The whole-text layout is the concatenation of the per-line layouts, the
`i`-th line at vertical offset `y + i·dir`: the per-line accumulator advances
by exactly `dirOf` per line, and the horizontal cursor restarts at 0
(`layoutLine` is `layoutLineGo` at `x = 0`). -/
theorem layoutGo_enum (font : BMFont) :
    ∀ (ls : List (List Nat)) (y : Int),
      layoutGo font ls y =
        (ls.enum.map (fun p =>
          layoutLine font (resolveLinePermissive font.characters p.2)
            (y + p.1 * dirOf font))).flatten := by
  intro ls y
  have h := layoutGo_enumFrom font ls 0 y
  simpa using h

/-- Characters of a split line come from the text and are never the newline. -/
theorem splitLinesGo_mem :
    ∀ (fuel : Nat) (cs : List Nat) (l : List Nat) (c : Nat),
      l ∈ splitLinesGo fuel cs → c ∈ l → c ∈ cs ∧ c ≠ 10 := by
  intro fuel
  induction fuel with
  | zero => intro cs l c hl; simp [splitLinesGo] at hl
  | succ fuel ih =>
    intro cs l c hl hc
    cases cs with
    | nil => simp [splitLinesGo] at hl
    | cons a rest =>
      unfold splitLinesGo at hl
      have hline : ∀ x ∈ (a :: rest).takeWhile (fun d => d != 10), x ∈ a :: rest ∧ x ≠ 10 := by
        intro x hx
        refine ⟨(List.takeWhile_sublist _).subset hx, ?_⟩
        have := List.mem_takeWhile_imp hx
        simpa using this
      cases hdrop : (a :: rest).dropWhile (fun d => d != 10) with
      | nil =>
        rw [hdrop] at hl
        rcases List.mem_singleton.mp hl with rfl
        exact hline c hc
      | cons b after =>
        rw [hdrop] at hl
        rcases List.mem_cons.mp hl with rfl | hl2
        · exact hline c hc
        · rcases ih after l c hl2 hc with ⟨h1, h2⟩
          refine ⟨?_, h2⟩
          have hsub : after ⊆ (a :: rest).dropWhile (fun d => d != 10) := by
            rw [hdrop]
            exact List.subset_cons_of_subset b (List.Subset.refl after)
          exact (List.dropWhile_suffix (fun d => d != 10)).subset (hsub h1)

/-- As `splitLinesGo_mem`, at the `splitLines` wrapper. -/
theorem splitLines_mem {text l : List Nat} {c : Nat}
    (hl : l ∈ splitLines text) (hc : c ∈ l) : c ∈ text ∧ c ≠ 10 :=
  splitLinesGo_mem text.length text l c hl hc

/-- The validation loop, characterised: it fails exactly when an accumulator is
already non-empty or a character of the text classifies as missing or
unsupported, and the error lists are the already-accumulated characters
followed by the matching characters of the text in encounter order
(duplicates kept). -/
theorem validateGo_spec (chars : List FontChar) :
    ∀ (text : List Nat) (m u : Option (List Nat)),
      validateGo chars text m u =
        if m.isSome = true ∨ u.isSome = true ∨ text.filter (isMissing chars) ≠ [] ∨
            text.filter isUnsupported ≠ [] then
          Except.error ⟨m.getD [] ++ text.filter (isMissing chars),
            u.getD [] ++ text.filter isUnsupported⟩
        else Except.ok () := by
  intro text
  induction text with
  | nil =>
    intro m u
    unfold validateGo
    by_cases hm : m.isSome
    · rw [if_pos (by simp [hm]), if_pos (by simp [hm])]
      simp
    · by_cases hu : u.isSome
      · rw [if_pos (by simp [hu]), if_pos (by simp [hm, hu])]
        simp
      · rw [if_neg (by simp [hm, hu]), if_neg (by simp [hm, hu])]
  | cons c rest ih =>
    intro m u
    by_cases h10 : c = 10
    · subst h10
      have hm : isMissing chars 10 = false := by simp [isMissing]
      have hu : isUnsupported 10 = false := by simp [isUnsupported]
      unfold validateGo
      rw [if_pos rfl, List.filter_cons, List.filter_cons, hm, hu]
      simp only [if_neg (by simp : ¬ (false = true))]
      exact ih m u
    · by_cases hbig : 65536 ≤ c
      · have hm : isMissing chars c = false := by
          simp [isMissing]
          omega
        have hu : isUnsupported c = true := by
          simp [isUnsupported]
          omega
        unfold validateGo
        rw [if_neg h10, if_pos hbig, List.filter_cons, List.filter_cons, hm, hu]
        simp only [if_neg (by simp : ¬ (false = true)), if_pos rfl]
        rw [ih m (some (u.getD [] ++ [c]))]
        have hcond1 : (some (u.getD [] ++ [c])).isSome = true := rfl
        rw [if_pos (by simp), if_pos (by right; right; right; simp)]
        simp
      · by_cases hlook : (lookupChar chars c).isSome
        · have hm : isMissing chars c = false := by
            simp [isMissing, hlook]
          have hu : isUnsupported c = false := by
            simp [isUnsupported]
            omega
          unfold validateGo
          rw [if_neg h10, if_neg hbig, if_pos hlook, List.filter_cons, List.filter_cons, hm, hu]
          simp only [if_neg (by simp : ¬ (false = true))]
          exact ih m u
        · have hm : isMissing chars c = true := by
            simp [isMissing, hlook]
            omega
          have hu : isUnsupported c = false := by
            simp [isUnsupported]
            omega
          unfold validateGo
          rw [if_neg h10, if_neg hbig, if_neg hlook, List.filter_cons, List.filter_cons, hm, hu]
          simp only [if_neg (by simp : ¬ (false = true)), if_pos rfl]
          rw [ih (some (m.getD [] ++ [c])) u]
          rw [if_pos (by simp), if_pos (by right; right; left; simp)]
          simp

/-- When every one-unit character of a line has a glyph, the strict resolver
does not panic and agrees with the permissive resolver. -/
theorem resolveLineStrict_eq_perm {chars : List FontChar} :
    ∀ l : List Nat, (∀ c ∈ l, c < 65536 → (lookupChar chars c).isSome) →
      resolveLineStrict chars l = some (resolveLinePermissive chars l) := by
  intro l
  induction l with
  | nil => intro _; rfl
  | cons c rest ih =>
    intro hall
    have hrest := fun c2 h2 => hall c2 (List.mem_cons_of_mem c h2)
    unfold resolveLineStrict resolveLinePermissive
    by_cases hc : c < 65536
    · rw [if_pos hc, if_pos hc]
      cases hl : lookupChar chars c with
      | none =>
        have := hall c (List.mem_cons_self c rest) hc
        rw [hl] at this
        cases this
      | some fc =>
        rw [ih hrest]
        rfl
    · rw [if_neg hc, if_neg hc]
      exact ih hrest

/-- When every one-unit character of every line has a glyph, the strict layout
iterator does not panic and agrees with the permissive one. -/
theorem layoutStrictGo_eq (font : BMFont) :
    ∀ (ls : List (List Nat)) (y : Int),
      (∀ l ∈ ls, ∀ c ∈ l, c < 65536 → (lookupChar font.characters c).isSome) →
      layoutStrictGo font ls y = some (layoutGo font ls y) := by
  intro ls
  induction ls with
  | nil => intro y _; rfl
  | cons l rest ih =>
    intro y hall
    unfold layoutStrictGo layoutGo
    rw [resolveLineStrict_eq_perm l (hall l (List.mem_cons_self l rest))]
    rw [ih (y + dirOf font) (fun l2 h2 => hall l2 (List.mem_cons_of_mem l h2))]
    rfl

/-- A successful strict validation guarantees a glyph for every one-unit
non-newline character of the text. -/
theorem validation_ok_lookup {font : BMFont} {text : List Nat}
    (h : parse_lines_strict font text = Except.ok ()) :
    ∀ c ∈ text, c ≠ 10 → c < 65536 → (lookupChar font.characters c).isSome := by
  intro c hc h10 hsmall
  by_contra hlook
  have hmiss : isMissing font.characters c = true := by
    simp [isMissing, hlook]
    omega
  have hmem : c ∈ text.filter (isMissing font.characters) :=
    List.mem_filter.mpr ⟨hc, hmiss⟩
  have hne : text.filter (isMissing font.characters) ≠ [] := by
    intro hnil
    rw [hnil] at hmem
    cases hmem
  unfold parse_lines_strict at h
  rw [validateGo_spec font.characters text none none] at h
  rw [if_pos (by right; right; left; exact hne)] at h
  cases h

/-- The `splitn(2, '=')` on a string without `'='` gives one part. -/
theorem splitn2Eq_no_eq : ∀ cs : List Char, '=' ∉ cs → splitn2Eq cs = [cs] := by
  intro cs
  induction cs with
  | nil => intro _; rfl
  | cons c rest ih =>
    intro hne
    have hc : ¬ c = '=' := fun h => hne (h ▸ List.mem_cons_self c rest)
    unfold splitn2Eq
    rw [if_neg hc, ih (fun h => hne (List.mem_cons_of_mem c h))]

/-- The `splitn(2, '=')` splits at the first `'='`. -/
theorem splitn2Eq_with_eq : ∀ (k v : List Char), '=' ∉ k → splitn2Eq (k ++ '=' :: v) = [k, v] := by
  intro k
  induction k with
  | nil =>
    intro v _
    rw [List.nil_append]
    unfold splitn2Eq
    rw [if_pos rfl]
  | cons c k' ih =>
    intro v hne
    have hc : ¬ c = '=' := fun h => hne (h ▸ List.mem_cons_self c k')
    rw [List.cons_append]
    unfold splitn2Eq
    rw [if_neg hc, ih v (fun h => hne (List.mem_cons_of_mem c h))]

/-- Destructuring a successful `extract_component_value` run. -/
theorem extract_ok_elim {τ : Type _} {conv : List Char → Option τ} {sOpt : Option (List Char)}
    {sectionName component : String} {t : τ}
    (h : extract_component_value conv sOpt sectionName component = Except.ok t) :
    ∃ tok k v, sOpt = some tok ∧ splitn2Eq tok = [k, v] ∧ k = component.data ∧
      conv v = some t := by
  cases sOpt with
  | none => exact Except.noConfusion h
  | some str =>
    unfold extract_component_value at h
    dsimp only [] at h
    cases hsplit : splitn2Eq str with
    | nil => rw [hsplit] at h; exact Except.noConfusion h
    | cons k rest =>
      cases rest with
      | nil => rw [hsplit] at h; exact Except.noConfusion h
      | cons v rest2 =>
        cases rest2 with
        | cons w rest3 => rw [hsplit] at h; exact Except.noConfusion h
        | nil =>
          rw [hsplit] at h
          dsimp only [] at h
          by_cases hk : k = component.data
          · rw [if_pos hk] at h
            cases hconv : conv v with
            | none => rw [hconv] at h; exact Except.noConfusion h
            | some val =>
              rw [hconv] at h
              dsimp only [] at h
              cases h
              exact ⟨str, k, v, rfl, hsplit, hk, hconv⟩
          · rw [if_neg hk] at h
            exact Except.noConfusion h

/-- A successful `Page::new` run: the stored file name is the raw `file`
component value with every surrounding quote stripped. -/
theorem pageNew_ok_elim {s : String} {p : Page} (h : pageNew s = Except.ok p) :
    ∃ raw, fileRawValue s = some raw ∧ p.file = String.mk (trimQuotes raw) := by
  unfold pageNew at h
  split at h
  · exact Except.noConfusion h
  · split at h
    · simp only [bind, Except.bind] at h
      cases hid : extract_component_value parseU32 ((splitWhitespace s).get? 1) "page" "id" with
      | error e => rw [hid] at h; simp only [liftCfg] at h; exact Except.noConfusion h
      | ok idv =>
        rw [hid] at h
        simp only [liftCfg] at h
        cases hfile : extract_component_value (fun v => some v) ((splitWhitespace s).get? 2)
            "page" "file" with
        | error e => rw [hfile] at h; simp only [liftCfg] at h; exact Except.noConfusion h
        | ok filev =>
          rw [hfile] at h
          simp only [liftCfg] at h
          cases h
          obtain ⟨tok, k, v, hget, hsplit, hk, hconv⟩ := extract_ok_elim hfile
          have hvf : v = filev := by simpa using hconv
          subst hvf
          refine ⟨v, ?_, rfl⟩
          unfold fileRawValue
          rw [hget, Option.some_bind, hsplit]
          show (if k = "file".data then some v else none) = some v
          rw [if_pos hk]
    · exact Except.noConfusion h

/-- C5: a font definition whose decoded text begins with an `info` line and a
`common` line and carries a non-empty `page` run, but has *no line at all*
after the page run, makes `Sections::new` call `.unwrap()` on `None`: the code
panics instead of returning `MissingSection("char")` as the claim states.  The
theorem evaluates `BMFont::new` at the failing input under both orientations
and records that the outcome is the panic, not the claimed error. -/
theorem C5_truncated_input_panics :
    bmfontNew exLinesTrunc OrdinateOrientation.TopToBottom = Except.error BuildErr.panic ∧
    bmfontNew exLinesTrunc OrdinateOrientation.BottomToTop = Except.error BuildErr.panic ∧
    BuildErr.panic ≠ BuildErr.cfg (ConfigParseError.MissingSection "char") := by
  refine ⟨by decide, by decide, by decide⟩

/-- C2: evaluation at the failing boundary key.  `BMFont::new` accepts a
kerning line with `first=0`, stores it, and `find_kerning_values(0)` — whose
needle `(0 << 1) - 1` underflows (a panic in checked builds; the wrap to
`2^32 - 1` is modelled here, as in release builds) — misses the run and yields
nothing, although exactly one stored entry has `first_char_id = 0`. -/
theorem C2_zero_key_lookup_misses :
    bmfontNew exLines0 OrdinateOrientation.TopToBottom = Except.ok exFont0 ∧
    exFont0.kerning_values =
      [{ first_char_id := 0, second_char_id := 0, value := 7 }] ∧
    find_kerning_values exFont0.kerning_values 0 = [] ∧
    exFont0.kerning_values.filter (fun kv => kv.first_char_id == 0) =
      [{ first_char_id := 0, second_char_id := 0, value := 7 }] := by
  refine ⟨by decide, by decide, by decide, by decide⟩

/-- C4: for every successfully constructed font, the glyph table is the
sorted-deduplicated insertion of the decoded `char` records: strictly sorted
ascending by id, first-declared metrics win (later duplicates are silently
dropped), and the binary-search glyph lookup for any id returns exactly the
first-declared record with that id (`find?` on the records in declaration
order). -/
theorem C4_char_table (lines : List String) (orient : OrdinateOrientation) (font : BMFont)
    (S : Sections) (cs : List FontChar)
    (hS : sectionsNew lines = Except.ok S)
    (hcs : S.char_sections.mapM charNew = Except.ok cs)
    (h : bmfontNew lines orient = Except.ok font) :
    font.characters = buildCharacters cs ∧
    font.characters.Pairwise (fun a b => a.id < b.id) ∧
    ∀ cid, lookupChar font.characters cid = cs.find? (fun c => c.id == cid) := by
  obtain ⟨S', lh, bh, pages, charRecs, kernRecs, hS', hlh, hbh, hpg, hch, hkn, hfont⟩ :=
    bmfontNew_ok_elim h
  have hSS : S' = S := Except.ok.inj (hS'.symm.trans hS)
  subst hSS
  have hrecs : charRecs = cs := Except.ok.inj (hch.symm.trans hcs)
  subst hrecs
  subst hfont
  refine ⟨rfl, buildCharacters_sorted _, fun cid => ?_⟩
  exact (lookupChar_eq_find? (buildCharacters_sorted _) cid).trans (buildCharacters_find? _ cid)

/-- Witness for C4 at a concrete font definition declaring id 97 twice, with
all hypotheses discharged and the lookup evaluated: the first-declared
metrics are retained. -/
theorem C4_char_table_witness :
    (sectionsNew dLines = Except.ok dSections ∧
     dSections.char_sections.mapM charNew = Except.ok dChars ∧
     bmfontNew dLines OrdinateOrientation.TopToBottom = Except.ok dFont) ∧
    dFont.characters = buildCharacters dChars ∧
    lookupChar dFont.characters 97 = dChars.find? (fun c => c.id == 97) ∧
    dChars.find? (fun c => c.id == 97) = some
      { id := 97, x := 1, y := 2, width := 3, height := 4,
        xoffset := 5, yoffset := 6, xadvance := 7, page_index := 0 } := by
  refine ⟨⟨by decide, by decide, by decide⟩, ?_, ?_, by decide⟩
  · exact (C4_char_table dLines OrdinateOrientation.TopToBottom dFont dSections dChars
      (by decide) (by decide) (by decide)).1
  · exact (C4_char_table dLines OrdinateOrientation.TopToBottom dFont dSections dChars
      (by decide) (by decide) (by decide)).2.2 97

/-- C8 (amended): `pages()` yields the page file names in declaration order,
each file value having *all* surrounding double-quote characters stripped
(`trim_matches('"')` removes every leading and trailing quote, not one
layer). -/
theorem C8_pages_trimmed (lines : List String) (orient : OrdinateOrientation) (font : BMFont)
    (S : Sections) (ps : List Page)
    (hS : sectionsNew lines = Except.ok S)
    (hps : S.page_sections.mapM pageNew = Except.ok ps)
    (h : bmfontNew lines orient = Except.ok font) :
    pagesFiles font = ps.map (fun p => p.file) ∧
    ∀ s p, pageNew s = Except.ok p →
      ∃ raw, fileRawValue s = some raw ∧ p.file = String.mk (trimQuotes raw) := by
  obtain ⟨S', lh, bh, pages, charRecs, kernRecs, hS', hlh, hbh, hpg, hch, hkn, hfont⟩ :=
    bmfontNew_ok_elim h
  have hSS : S' = S := Except.ok.inj (hS'.symm.trans hS)
  subst hSS
  have hpp : pages = ps := Except.ok.inj (hpg.symm.trans hps)
  subst hpp
  subst hfont
  exact ⟨rfl, fun s p hp => pageNew_ok_elim hp⟩

/-- Counterexample to C8 as stated: a `file` value with doubled surrounding
quotes loses *both* layers.  The claim predicts that only the outer layer is
stripped and the inner quotes are retained (`"a"`); the constructed font's
page list actually holds `a`. -/
theorem C8_cex :
    bmfontNew exLinesQuote OrdinateOrientation.TopToBottom = Except.ok exFontQuote ∧
    fileRawValue "page id=0 file=\"\"a\"\"" = some "\"\"a\"\"".data ∧
    pagesFiles exFontQuote = ["a"] ∧
    String.mk (stripOneLayer "\"\"a\"\"".data) = "\"a\"" ∧
    ("a" : String) ≠ "\"a\"" := by
  refine ⟨by decide, by decide, by decide, by decide, by decide⟩

/-- Witness for C8 (amended) at a concrete font definition, hypotheses
discharged and the page list evaluated. -/
theorem C8_pages_trimmed_witness :
    (sectionsNew wLines = Except.ok wSections ∧
     wSections.page_sections.mapM pageNew = Except.ok wPages ∧
     bmfontNew wLines OrdinateOrientation.TopToBottom = Except.ok wFont) ∧
    pagesFiles wFont = wPages.map (fun p => p.file) ∧
    pagesFiles wFont = ["font.png"] := by
  refine ⟨⟨by decide, by decide, by decide⟩, ?_, by decide⟩
  exact (C8_pages_trimmed wLines OrdinateOrientation.TopToBottom wFont wSections wPages
    (by decide) (by decide) (by decide)).1

/-- C7: the four failure modes and the success mode of
`extract_component_value`, for every conversion target: absent token →
`MissingComponent`; token without `'='` → `InvalidComponentValue` with empty
value; wrong key before the first `'='` → `InvalidComponent`; conversion
failure of the value half → `InvalidComponentValue` carrying the value;
otherwise success with the converted value. -/
theorem C7_extract_cases {τ : Type _} (conv : List Char → Option τ)
    (sectionName component : String) :
    (extract_component_value conv none sectionName component =
      Except.error (ConfigParseError.MissingComponent sectionName component)) ∧
    (∀ str : List Char, '=' ∉ str →
      extract_component_value conv (some str) sectionName component =
        Except.error (ConfigParseError.InvalidComponentValue sectionName component "")) ∧
    (∀ k v : List Char, '=' ∉ k → k ≠ component.data →
      extract_component_value conv (some (k ++ '=' :: v)) sectionName component =
        Except.error (ConfigParseError.InvalidComponent sectionName component (String.mk k))) ∧
    (∀ k v : List Char, '=' ∉ k → k = component.data → conv v = none →
      extract_component_value conv (some (k ++ '=' :: v)) sectionName component =
        Except.error (ConfigParseError.InvalidComponentValue sectionName component
          (String.mk v))) ∧
    (∀ (k v : List Char) (t : τ), '=' ∉ k → k = component.data → conv v = some t →
      extract_component_value conv (some (k ++ '=' :: v)) sectionName component =
        Except.ok t) := by
  refine ⟨rfl, ?_, ?_, ?_, ?_⟩
  · intro str hne
    unfold extract_component_value
    dsimp only []
    rw [splitn2Eq_no_eq str hne]
  · intro k v hne hk
    unfold extract_component_value
    dsimp only []
    rw [splitn2Eq_with_eq k v hne]
    dsimp only []
    rw [if_neg hk]
  · intro k v hne hk hconv
    unfold extract_component_value
    dsimp only []
    rw [splitn2Eq_with_eq k v hne]
    dsimp only []
    rw [if_pos hk, hconv]
  · intro k v t hne hk hconv
    unfold extract_component_value
    dsimp only []
    rw [splitn2Eq_with_eq k v hne]
    dsimp only []
    rw [if_pos hk, hconv]

/-- Witness for C7 at concrete tokens, with the definitions evaluated: a
well-formed `lineHeight=80` token converts, and a key mismatch is an
`InvalidComponent`. -/
theorem C7_extract_cases_witness :
    ('=' ∉ "lineHeight".data ∧ "lineHeight".data = "lineHeight".data ∧
      parseU32 "80".data = some 80 ∧
      "lineHeight".data ++ '=' :: "80".data = "lineHeight=80".data ∧
      "base".data ≠ "lineHeight".data) ∧
    extract_component_value parseU32 (some "lineHeight=80".data) "common" "lineHeight" =
      Except.ok 80 ∧
    extract_component_value parseU32 (some "base=54".data) "common" "lineHeight" =
      Except.error (ConfigParseError.InvalidComponent "common" "lineHeight" "base") := by
  refine ⟨⟨by decide, rfl, by decide, by decide, by decide⟩, ?_, ?_⟩
  · have h := (C7_extract_cases parseU32 "common" "lineHeight").2.2.2.2
      "lineHeight".data "80".data 80 (by decide) rfl (by decide)
    rw [show "lineHeight".data ++ '=' :: "80".data = "lineHeight=80".data from by decide] at h
    exact h
  · have h := (C7_extract_cases parseU32 "common" "lineHeight").2.2.1
      "base".data "54".data (by decide) (by decide)
    rw [show "base".data ++ '=' :: "54".data = "base=54".data from by decide] at h
    exact h

/-- The `isMissing` unpacked. -/
theorem isMissing_iff {chars : List FontChar} {c : Nat} :
    isMissing chars c = true ↔ c ≠ 10 ∧ c < 65536 ∧ lookupChar chars c = none := by
  unfold isMissing
  cases hl : lookupChar chars c <;> simp [hl, Option.isSome]

/-- The `isUnsupported` unpacked. -/
theorem isUnsupported_iff {c : Nat} :
    isUnsupported c = true ↔ c ≠ 10 ∧ 65536 ≤ c := by
  unfold isUnsupported
  simp

/-- C3: with strict error reporting, `parse` fails exactly when the text
contains a non-newline character that needs two UTF-16 units (unsupported) or
has no glyph (missing); the error carries both classes as the text is scanned,
in first-encounter order with duplicates kept; the newline is never
classified.  On failure the result is `Except.error`, which carries no
`CharPosition` sequence, so no element is produced. -/
theorem C3_strict_validation (font : BMFont) (text : List Nat) :
    (∀ e, parseStrict font text = Except.error e →
      e.missing_characters = text.filter (isMissing font.characters) ∧
      e.unsupported_characters = text.filter isUnsupported ∧
      10 ∉ e.missing_characters ∧ 10 ∉ e.unsupported_characters) ∧
    ((∃ e, parseStrict font text = Except.error e) ↔
      ∃ c ∈ text, c ≠ 10 ∧ (65536 ≤ c ∨ lookupChar font.characters c = none)) := by
  have hval := validateGo_spec font.characters text none none
  have hstep : parseStrict font text =
      match validateGo font.characters text none none with
      | Except.error e => Except.error e
      | Except.ok _ => Except.ok (layoutTextStrict font text) := rfl
  by_cases hcond : text.filter (isMissing font.characters) ≠ [] ∨
      text.filter isUnsupported ≠ []
  · have herr : parseStrict font text =
        Except.error ⟨text.filter (isMissing font.characters), text.filter isUnsupported⟩ := by
      rw [hstep, hval, if_pos (Or.inr (Or.inr hcond))]
      simp
    constructor
    · intro e he
      rw [herr] at he
      cases he
      refine ⟨rfl, rfl, ?_, ?_⟩
      · intro hmem
        have h2 := isMissing_iff.mp (List.mem_filter.mp hmem).2
        exact h2.1 rfl
      · intro hmem
        have h2 := isUnsupported_iff.mp (List.mem_filter.mp hmem).2
        exact h2.1 rfl
    · constructor
      · intro _
        rcases hcond with hfm | hfu
        · rcases List.exists_mem_of_ne_nil _ hfm with ⟨c, hc⟩
          rcases List.mem_filter.mp hc with ⟨hctext, hcp⟩
          rcases isMissing_iff.mp hcp with ⟨h10, _, hnone⟩
          exact ⟨c, hctext, h10, Or.inr hnone⟩
        · rcases List.exists_mem_of_ne_nil _ hfu with ⟨c, hc⟩
          rcases List.mem_filter.mp hc with ⟨hctext, hcp⟩
          rcases isUnsupported_iff.mp hcp with ⟨h10, hbig⟩
          exact ⟨c, hctext, h10, Or.inl hbig⟩
      · intro _
        exact ⟨_, herr⟩
  · push_neg at hcond
    have hok : parseStrict font text = Except.ok (layoutTextStrict font text) := by
      rw [hstep, hval, if_neg (by simp [hcond.1, hcond.2])]
    constructor
    · intro e he
      rw [hok] at he
      exact Except.noConfusion he
    · constructor
      · intro ⟨e, he⟩
        rw [hok] at he
        exact absurd he (by simp)
      · intro ⟨c, hctext, h10, hbad⟩
        exfalso
        by_cases hcb : 65536 ≤ c
        · have hmem : c ∈ text.filter isUnsupported :=
            List.mem_filter.mpr ⟨hctext, isUnsupported_iff.mpr ⟨h10, hcb⟩⟩
          rw [hcond.2] at hmem
          cases hmem
        · rcases hbad with hbig | hnone
          · exact hcb hbig
          · have hmem : c ∈ text.filter (isMissing font.characters) :=
              List.mem_filter.mpr ⟨hctext, isMissing_iff.mpr ⟨h10, by omega, hnone⟩⟩
            rw [hcond.1] at hmem
            cases hmem

/-- Witness for C3: a glyph-less character makes strict parse fail, via the
theorem's iff, at a concrete font and text. -/
theorem C3_strict_validation_witness :
    (∃ c ∈ ([99] : List Nat), c ≠ 10 ∧ (65536 ≤ c ∨ lookupChar wFont.characters c = none)) ∧
    (∃ e, parseStrict wFont ([99] : List Nat) = Except.error e) := by
  have hc : ∃ c ∈ ([99] : List Nat), c ≠ 10 ∧
      (65536 ≤ c ∨ lookupChar wFont.characters c = none) :=
    ⟨99, by decide, by decide, Or.inr (by decide)⟩
  exact ⟨hc, (C3_strict_validation wFont [99]).2.mpr hc⟩

/-- C9: whenever the strict validation pass succeeds, every character the
layout iterator later resolves has a glyph, so the `unwrap` inside
`CharIter::next` never panics: the strict layout result is `some` sequence. -/
theorem C9_no_panic_after_validation (font : BMFont) (text : List Nat)
    (r : Option (List CharPosition)) (h : parseStrict font text = Except.ok r) :
    ∃ l, r = some l := by
  unfold parseStrict at h
  cases hv : parse_lines_strict font text with
  | error e => rw [hv] at h; exact Except.noConfusion h
  | ok u =>
    rw [hv] at h
    cases h
    refine ⟨layoutGo font (splitLines text) 0, ?_⟩
    unfold layoutTextStrict
    apply layoutStrictGo_eq
    intro l hl c hc hsmall
    rcases splitLines_mem hl hc with ⟨hctext, h10⟩
    exact validation_ok_lookup hv c hctext h10 hsmall

/-- Witness for C9 at a concrete font and text with the hypothesis
discharged by evaluation. -/
theorem C9_no_panic_after_validation_witness :
    parseStrict wFont ([97, 98] : List Nat) =
      Except.ok (layoutTextStrict wFont [97, 98]) ∧
    ∃ l, layoutTextStrict wFont ([97, 98] : List Nat) = some l := by
  refine ⟨by decide, ?_⟩
  exact C9_no_panic_after_validation wFont [97, 98] (layoutTextStrict wFont [97, 98]) (by decide)

/-- C10: on any text accepted by strict-mode `parse`, the strict result is
exactly the permissive-mode sequence: the two build modes differ only in the
up-front validation gate and in the permissive skip of unresolvable
characters, which validated input never triggers. -/
theorem C10_strict_eq_permissive (font : BMFont) (text : List Nat)
    (r : Option (List CharPosition)) (h : parseStrict font text = Except.ok r) :
    r = some (layoutText font text) := by
  unfold parseStrict at h
  cases hv : parse_lines_strict font text with
  | error e => rw [hv] at h; exact Except.noConfusion h
  | ok u =>
    rw [hv] at h
    cases h
    unfold layoutTextStrict layoutText
    apply layoutStrictGo_eq
    intro l hl c hc hsmall
    rcases splitLines_mem hl hc with ⟨hctext, h10⟩
    exact validation_ok_lookup hv c hctext h10 hsmall

/-- Witness for C10 at a concrete font and text, both sides evaluated. -/
theorem C10_strict_eq_permissive_witness :
    parseStrict wFont ([97, 98, 10, 97] : List Nat) =
      Except.ok (layoutTextStrict wFont [97, 98, 10, 97]) ∧
    layoutTextStrict wFont ([97, 98, 10, 97] : List Nat) =
      some (layoutText wFont [97, 98, 10, 97]) := by
  refine ⟨by decide, ?_⟩
  exact C10_strict_eq_permissive wFont [97, 98, 10, 97]
    (layoutTextStrict wFont [97, 98, 10, 97]) (by decide)

/-- C6: the vertical accumulator starts at 0 and advances by `dirOf`
(`+line_height` for TopToBottom, `-line_height` for BottomToTop) after every
line while the horizontal cursor restarts at 0 (first conjunct, the
general law); and for any TopToBottom font holding glyphs for `R`, `u`, `s`,
`t` with `line_height` in `i32` range, `parse("Rust\nRust")` emits exactly 8
positions whose second half is the first half shifted by `+line_height` in
screen y (second conjunct). -/
theorem C6_line_accumulator :
    (∀ (font : BMFont) (text : List Nat),
      layoutText font text =
        ((splitLines text).enum.map (fun p =>
          layoutLine font (resolveLinePermissive font.characters p.2)
            (p.1 * dirOf font))).flatten) ∧
    (∀ (font : BMFont) (cR cu cs2 ct : FontChar),
      font.ordinate_orientation = OrdinateOrientation.TopToBottom →
      font.line_height < i32Half →
      lookupChar font.characters 82 = some cR →
      lookupChar font.characters 117 = some cu →
      lookupChar font.characters 115 = some cs2 →
      lookupChar font.characters 116 = some ct →
      (layoutText font rustText).length = 8 ∧
      (layoutText font rustText).drop 4 =
        ((layoutText font rustText).take 4).map (shiftY (font.line_height : Int))) := by
  constructor
  · intro font text
    unfold layoutText
    rw [layoutGo_enum font (splitLines text) 0]
    refine congrArg _ (List.map_congr_left ?_)
    intro p hp
    rw [zero_add]
  · intro font cR cu cs2 ct horient hlh hR hu hs2 ht
    have hsplit : splitLines rustText = [[82, 117, 115, 116], [82, 117, 115, 116]] := by rfl
    have hres : resolveLinePermissive font.characters [82, 117, 115, 116] =
        [cR, cu, cs2, ct] := by
      simp [resolveLinePermissive, hR, hu, hs2, ht]
    have hlay : layoutText font rustText =
        layoutLine font [cR, cu, cs2, ct] 0 ++
          (layoutLine font [cR, cu, cs2, ct] (0 + dirOf font) ++ []) := by
      unfold layoutText
      rw [hsplit]
      show layoutLine font (resolveLinePermissive font.characters [82, 117, 115, 116]) 0 ++
          (layoutLine font (resolveLinePermissive font.characters [82, 117, 115, 116])
            (0 + dirOf font) ++ []) = _
      rw [hres]
    have hlen4 : ∀ y : Int, (layoutLine font [cR, cu, cs2, ct] y).length = 4 := by
      intro y
      unfold layoutLine
      rw [layoutLineGo_length]
      rfl
    have hdir : dirOf font = (font.line_height : Int) := by
      unfold dirOf
      rw [horient]
      exact toI32_eq_of_lt hlh
    constructor
    · rw [hlay]
      simp [hlen4]
    · rw [hlay, List.append_nil]
      have hA := hlen4 0
      have hshift : layoutLine font [cR, cu, cs2, ct] (0 + dirOf font) =
          (layoutLine font [cR, cu, cs2, ct] 0).map (shiftY (dirOf font)) := by
        unfold layoutLine
        exact layoutLineGo_shift font (dirOf font) [cR, cu, cs2, ct] 0 0 none
      rw [← hA, List.drop_left, List.take_left, hshift, hdir]

/-- Witness for C6 at a concrete TopToBottom font with all four glyphs,
hypotheses discharged and the output length evaluated. -/
theorem C6_line_accumulator_witness :
    (wFontC6.ordinate_orientation = OrdinateOrientation.TopToBottom ∧
     wFontC6.line_height < i32Half ∧
     (lookupChar wFontC6.characters 82).isSome ∧
     (lookupChar wFontC6.characters 117).isSome ∧
     (lookupChar wFontC6.characters 115).isSome ∧
     (lookupChar wFontC6.characters 116).isSome) ∧
    (layoutText wFontC6 rustText).length = 8 ∧
    (layoutText wFontC6 rustText).drop 4 =
      ((layoutText wFontC6 rustText).take 4).map (shiftY (wFontC6.line_height : Int)) := by
  refine ⟨⟨by decide, by decide, by decide, by decide, by decide, by decide⟩, ?_⟩
  exact C6_line_accumulator.2 wFontC6
    { id := 82, x := 1, y := 1, width := 8, height := 9,
      xoffset := 1, yoffset := 2, xadvance := 9, page_index := 0 }
    { id := 117, x := 4, y := 4, width := 6, height := 7,
      xoffset := 1, yoffset := 4, xadvance := 8, page_index := 0 }
    { id := 115, x := 2, y := 2, width := 6, height := 7,
      xoffset := 0, yoffset := 4, xadvance := 7, page_index := 0 }
    { id := 116, x := 3, y := 3, width := 5, height := 8,
      xoffset := 0, yoffset := 3, xadvance := 6, page_index := 0 }
    rfl (by decide) (by decide) (by decide) (by decide) (by decide)

/-- C1 (amended): for every constructed font whose kerning keys lie in
`[1, 2^31)` and whose `u32` metrics fit in `i32`, the emitted sequence
satisfies the claimed per-glyph formulas exactly: `page_rect` is the glyph's
atlas rectangle; `screen_x = x + xoffset + kerning_value` with
`kerning_value` the first kerning entry of the immediately preceding glyph of
the line whose `second_char_id` matches (0 for the first glyph);
orientation-dependent `screen_y`; and the cursor advances by
`xadvance + kerning_value`.  Stated as equality with the transcription of the
claim (`claimLayoutText`).  The range restriction is forced: at
`first_char_id = 0` the lookup's wrapped needle misses the run. -/
theorem C1_layout_formulas (lines : List String) (orient : OrdinateOrientation)
    (font : BMFont) (h : bmfontNew lines orient = Except.ok font)
    (hkr : ∀ kv ∈ font.kerning_values, 1 ≤ kv.first_char_id ∧ kv.first_char_id < i32Half)
    (hchars : ∀ c ∈ font.characters, c.x < i32Half ∧ c.y < i32Half ∧ c.height < i32Half)
    (hbase : font.base_height < i32Half) (hlh : font.line_height < i32Half)
    (text : List Nat) :
    layoutText font text = claimLayoutText font text := by
  have hsorted : font.kerning_values.Pairwise
      (fun a b => a.first_char_id ≤ b.first_char_id) := by
    obtain ⟨S, lh, bh, pages, charRecs, kernRecs, _, _, _, _, _, _, hfont⟩ :=
      bmfontNew_ok_elim h
    subst hfont
    exact buildKernings_sorted kernRecs
  unfold layoutText claimLayoutText
  exact layoutGo_eq_claim font hsorted hkr hchars hbase hlh _ 0

/-- Counterexample to C1 as stated: a constructed font holding a glyph with
id 0 and a kerning entry with `first_char_id = 0`.  For the text `"\0\0"` the
second glyph's claimed kerning value is 7 (the first kerning entry of the
preceding glyph with matching `second_char_id`), but the engine finds none —
the wrapped needle `(0 << 1) - 1` sends the binary search past the run — so
the emitted `screen_rect.x` differs from the claimed one. -/
theorem C1_layout_formulas_cex :
    bmfontNew exLines0 OrdinateOrientation.TopToBottom = Except.ok exFont0 ∧
    layoutText exFont0 [0, 0] ≠ claimLayoutText exFont0 [0, 0] ∧
    (layoutText exFont0 [0, 0]).map (fun p => p.screen_rect.x) = [0, 1] ∧
    (claimLayoutText exFont0 [0, 0]).map (fun p => p.screen_rect.x) = [0, 8] := by
  refine ⟨by decide, by decide, by decide, by decide⟩

/-- Witness for C1 (amended) at a concrete constructed font with kerning,
hypotheses discharged and both sides evaluated. -/
theorem C1_layout_formulas_witness :
    (bmfontNew wLines OrdinateOrientation.TopToBottom = Except.ok wFont ∧
     (∀ kv ∈ wFont.kerning_values, 1 ≤ kv.first_char_id ∧ kv.first_char_id < i32Half) ∧
     (∀ c ∈ wFont.characters, c.x < i32Half ∧ c.y < i32Half ∧ c.height < i32Half) ∧
     wFont.base_height < i32Half ∧ wFont.line_height < i32Half) ∧
    layoutText wFont [97, 98, 10, 98] = claimLayoutText wFont [97, 98, 10, 98] ∧
    (layoutText wFont [97, 98, 10, 98]).map (fun p => p.screen_rect.x) = [5, 6, 1] := by
  refine ⟨⟨by decide, by decide, by decide, by decide, by decide⟩, ?_, by decide⟩
  exact C1_layout_formulas wLines OrdinateOrientation.TopToBottom wFont (by decide)
    (by decide) (by decide) (by decide) (by decide) [97, 98, 10, 98]
